import Mathlib

/-!
Verification development for the PedroCLI fine-tuning data pipeline
(`src/finetune/collect_data.py` and `src/finetune/prepare_dataset.py`).

Strings of the Python program are modelled as `List Char` (sequences of
Unicode scalar values).  Python floats are modelled as rational numbers
together with an explicit round-to-nearest-even function `fl` with a 53-bit
significand and unbounded exponent (exact for every magnitude the pipeline
touches; overflow and subnormals are out of range for ratios and list
lengths).  Database rows, the JSONL artifacts, and the JSON library used by
the two stages are modelled explicitly below.
-/

/-- Characters of a Python `str`. -/
abbrev Str := List Char


/-- Structural binary logarithm: with fuel at least `n`, `natLogAux fuel n`
is the floor of the base-2 logarithm of `n` (0 for `n ≤ 1`). -/
def natLogAux : Nat → Nat → Nat
  | 0, _ => 0
  | fuel + 1, n => if n ≤ 1 then 0 else natLogAux fuel (n / 2) + 1


/-- Structural ceiling binary logarithm: with fuel at least `n`,
`natClogAux fuel n` is the least `k` with `n ≤ 2 ^ k`. -/
def natClogAux : Nat → Nat → Nat
  | 0, _ => 0
  | fuel + 1, n => if n ≤ 1 then 0 else natClogAux fuel ((n + 1) / 2) + 1


/-- Floor of the base-2 logarithm of a positive rational (junk at `q ≤ 0`). -/
def ratLog2 (q : ℚ) : ℤ :=
  if 1 ≤ q then (natLogAux ⌊q⌋₊ ⌊q⌋₊ : ℤ)
  else -(natClogAux ⌈q⁻¹⌉₊ ⌈q⁻¹⌉₊ : ℤ)


/-- Round a rational to the nearest integer, ties to even (IEEE default). -/
def rne (x : ℚ) : ℤ :=
  let n := ⌊x⌋
  if x - n < 1 / 2 then n
  else if 1 / 2 < x - n then n + 1
  else if Even n then n else n + 1


/-- Round a rational to the nearest IEEE double (53-bit significand,
round-to-nearest-even, unbounded exponent: exact for all magnitudes the
pipeline produces, where neither overflow nor subnormals can occur). -/
def fl (x : ℚ) : ℚ :=
  if x = 0 then 0
  else
    (if x < 0 then -1 else 1) *
      (rne (|x| * (2 : ℚ) ^ ((52 : ℤ) - ratLog2 |x|)) : ℚ) *
      (2 : ℚ) ^ (ratLog2 |x| - (52 : ℤ))


/-- Python `int()` applied to a float value: truncation toward zero. -/
def pyTrunc (q : ℚ) : ℤ := if 0 ≤ q then ⌊q⌋ else -⌊-q⌋


/-- Python slice `l[:k]` for an arbitrary signed index `k`
(negative indices count from the end, out-of-range indices clamp). -/
def pySliceTo {α : Type} (l : List α) (k : ℤ) : List α :=
  if 0 ≤ k then l.take k.toNat else l.take (l.length - min l.length (-k).toNat)


/-- Python slice `l[k:]` for an arbitrary signed index `k`. -/
def pySliceFrom {α : Type} (l : List α) (k : ℤ) : List α :=
  if 0 ≤ k then l.drop k.toNat else l.drop (l.length - min l.length (-k).toNat)


/-- One step of the pseudorandom stream behind `random.shuffle`.  The
Mersenne Twister itself is external library code; it is modelled by a
deterministic 64-bit mixed congruential step.  Every claim about the split
depends only on the stream being a deterministic function of the seed and
on each draw `s % (i + 1)` lying in `[0, i]`, which both models share. -/
def lcgNext (s : Nat) : Nat := (6364136223846793005 * s + 1442695040888963407) % 2 ^ 64


/-- Swap the elements at positions `i` and `j` (identity when out of range),
mirroring `x[i], x[j] = x[j], x[i]` in CPython's Fisher–Yates shuffle. -/
def listSwap {α : Type} (l : List α) (i j : Nat) : List α :=
  match l[i]?, l[j]? with
  | some a, some b => (l.set i b).set j a
  | _, _ => l


/-- Fisher–Yates loop of `random.shuffle`: for `i` from `n - 1` down to 1,
draw `j` in `[0, i]` and swap positions `i` and `j`. -/
def shuffleAux {α : Type} : Nat → Nat → List α → List α
  | 0, _, l => l
  | i + 1, s, l =>
    let t := lcgNext s
    shuffleAux i t (listSwap l (i + 1) (t % (i + 2)))


/-- `random.seed(seed)` followed by `random.shuffle(l)`
(prepare_dataset.py:88 and prepare_dataset.py:49). -/
def pyShuffle {α : Type} (seed : Nat) (l : List α) : List α :=
  shuffleAux (l.length - 1) seed l


/-- `split_dataset` (prepare_dataset.py:47-51): shuffle, then cut at
`int(len(examples) * train_ratio)`.  `train_ratio` is the IEEE-double value
received from the command line; the multiplication first converts the
length to a double and then rounds the product once. -/
def split_dataset {α : Type} (seed : Nat) (examples : List α) (train_ratio : ℚ) :
    List α × List α :=
  let shuffled := pyShuffle seed examples
  let k := pyTrunc (fl (fl (examples.length : ℚ) * train_ratio))
  (pySliceTo shuffled k, pySliceFrom shuffled k)


/-!  JSON values.  The array and object spines are dedicated inductives (not
`List`) so that all functions over JSON compile by structural recursion and
reduce in the kernel.  An object is an ordered sequence of key/value pairs;
Python dict semantics (later assignments win) are captured by `jObjGet`. -/

mutual
inductive Json : Type where
  | null : Json
  | bool : Bool → Json
  | num : ℚ → Json
  | str : Str → Json
  | arr : JsonArr → Json
  | obj : JsonObj → Json
inductive JsonArr : Type where
  | nil : JsonArr
  | cons : Json → JsonArr → JsonArr
inductive JsonObj : Type where
  | nil : JsonObj
  | cons : Str → Json → JsonObj → JsonObj
end

/-- Lookup in a JSON object with Python-dict semantics: when a key occurs
several times the latest occurrence wins. -/
def jObjGet : JsonObj → Str → Option Json
  | .nil, _ => none
  | .cons k v rest, key =>
    match jObjGet rest key with
    | some r => some r
    | none => if k = key then some v else none


/-- A scalar metadata value (string, number, boolean or `None`): the
`metadata` field is an open string-keyed mapping of scalar values. -/
inductive JScalar : Type where
  | str : Str → JScalar
  | num : ℚ → JScalar
  | bool : Bool → JScalar
  | null : JScalar
deriving DecidableEq


/-- The `TrainingExample` dataclass (collect_data.py:21-31).  The text and
source-type fields are `Option`s because the Python annotations are not
enforced: a database `NULL` is stored as `None` unchanged. -/
structure TrainingExample : Type where
  input_text : Option Str
  output_text : Option Str
  source_type : Option Str
  quality_score : ℚ
  metadata : Option (List (Str × JScalar))
deriving DecidableEq


/-- A row of the `blog_posts` query (collect_data.py:67-73):
`raw_transcription`, `final_content`, `title`, `id`, `status`. -/
structure BlogRow : Type where
  raw_transcription : Option Str
  final_content : Option Str
  title : Option Str
  id : Nat
  status : Str
deriving DecidableEq


/-- A row of the `training_pairs` query (collect_data.py:99-104). -/
structure PairRow : Type where
  input_text : Option Str
  output_text : Option Str
  source_type : Option Str
  quality_score : Option ℚ
  metadata : Option (List (Str × JScalar))
deriving DecidableEq


/-- Decimal digits of a natural number, most significant first
(structural on the fuel so it reduces in the kernel; fuel `n` suffices). -/
def natDigitsAux : Nat → Nat → List Char
  | 0, _ => []
  | fuel + 1, n =>
    if n = 0 then [] else Char.ofNat (48 + n % 10) :: natDigitsAux fuel (n / 10)


/-- Python `str()` of a natural number. -/
def natToChars (n : Nat) : Str :=
  if n = 0 then ['0'] else (natDigitsAux n n).reverse


/-- The `WHERE` clause of the blog-post query (collect_data.py:70-72):
non-null raw and final text and status in `('published', 'public')`. -/
def blogRowKeep (r : BlogRow) : Bool :=
  r.raw_transcription.isSome && r.final_content.isSome &&
    (r.status == "published".data || r.status == "public".data)


/-- The loop body of `collect_from_blog_posts` (collect_data.py:78-89):
`if raw and final` (Python truthiness: present and non-empty) guards the
construction of the example with `source_type='blog'`, the default quality
score 1.0 and metadata `{'post_id': str(id), 'title': title}`. -/
def blogRowToExample (r : BlogRow) : Option TrainingExample :=
  match r.raw_transcription, r.final_content with
  | some raw, some fin =>
    if raw ≠ [] ∧ fin ≠ [] then
      some { input_text := some raw
             output_text := some fin
             source_type := some "blog".data
             quality_score := 1
             metadata := some [("post_id".data, .str (natToChars r.id)),
                               ("title".data,
                                 match r.title with
                                 | some t => .str t
                                 | none => .null)] }
    else none
  | _, _ => none


/-- `collect_from_blog_posts` (collect_data.py:62-92) over the store rows. -/
def collect_from_blog_posts (rows : List BlogRow) : List TrainingExample :=
  (rows.filter blogRowKeep).filterMap blogRowToExample


/-- The `WHERE` clause of the training-pairs query (collect_data.py:102-103):
`output_text IS NOT NULL AND output_text != ''`.  No condition restricts
`input_text`. -/
def pairRowKeep (r : PairRow) : Bool :=
  match r.output_text with
  | some s => decide (s ≠ [])
  | none => false


/-- The loop body of `collect_from_training_pairs` (collect_data.py:109-117):
every selected row becomes an example; `quality_score or 1.0` maps `None`
and the falsy score 0 to 1.0; `metadata or {}` maps `None` to `{}`. -/
def pairRowToExample (r : PairRow) : TrainingExample :=
  { input_text := r.input_text
    output_text := r.output_text
    source_type := r.source_type
    quality_score :=
      match r.quality_score with
      | none => 1
      | some s => if s = 0 then 1 else s
    metadata := some (r.metadata.getD []) }


/-- `collect_from_training_pairs` (collect_data.py:94-120) over the rows. -/
def collect_from_training_pairs (rows : List PairRow) : List TrainingExample :=
  (rows.filter pairRowKeep).map pairRowToExample


/-- The Aggregator (collect_data.py:204-205): blog posts first, then
training pairs, in source order. -/
def collectAll (blogRows : List BlogRow) (pairRows : List PairRow) : List TrainingExample :=
  collect_from_blog_posts blogRows ++ collect_from_training_pairs pairRows


/-- `filter_by_quality` (collect_data.py:131-136): keep the examples whose
`quality_score >= min_score`. -/
def filter_by_quality (min_score : ℚ) (examples : List TrainingExample) :
    List TrainingExample :=
  examples.filter (fun ex => decide (min_score ≤ ex.quality_score))


/-- The fixed instruction template of `format_as_instruction`
(prepare_dataset.py:29-37). -/
def instructionText : Str :=
  ("Transform the following raw dictation into a polished, narrative-driven blog post.\n\nGuidelines:\n- Identify and clearly state the central thesis\n- Organize content with strong narrative flow\n- Maintain authentic voice and tone\n- Include engaging opening and strong conclusion\n- End with clear call to action\n").data


def kInputText : Str := "input_text".data


def kOutputText : Str := "output_text".data


def kSourceType : Str := "source_type".data


def kQualityScore : Str := "quality_score".data


def kMetadata : Str := "metadata".data


def kInstruction : Str := "instruction".data


def kInput : Str := "input".data


def kOutput : Str := "output".data


def kSource : Str := "source".data


def unknownChars : Str := "unknown".data


/-- `format_as_instruction` (prepare_dataset.py:18-44) on a record read from
the intermediate JSONL file.  `example['input_text']` and
`example['output_text']` raise on a missing key (modelled as `none`), while
`example.get('source_type', 'unknown')` substitutes the default only when
the key is absent. -/
def format_as_instruction (ex : Json) : Option Json :=
  match ex with
  | .obj ms =>
    match jObjGet ms kInputText, jObjGet ms kOutputText with
    | some i, some o =>
      some (.obj (.cons kInstruction (.str instructionText)
        (.cons kInput i
        (.cons kOutput o
        (.cons kSource ((jObjGet ms kSourceType).getD (.str unknownChars)) .nil)))))
    | _, _ => none
  | _ => none


/-- `Option`-valued map that aborts on the first failure, as a Python list
comprehension or read loop does when an element raises. -/
def mapMo {α β : Type} (f : α → Option β) : List α → Option (List β)
  | [] => some []
  | x :: xs =>
    match f x with
    | none => none
    | some y => (mapMo f xs).map (fun ys => y :: ys)


/-- The formatting pass of the preparation stage (prepare_dataset.py:102). -/
def formatAll (records : List Json) : Option (List Json) :=
  mapMo format_as_instruction records


/-!  The JSON library used by both stages (`json.dumps` with its defaults:
`ensure_ascii=True`, separators `', '` and `': '`; and `json.loads`) is
external library code; it is modelled by an explicit serializer and a
fuel-based recursive-descent parser over `List Char`.  Doubles inside JSON
are serialized as exact finite decimals (every double is one), which is
value-equivalent to CPython's shortest-repr output. -/

def isJWsB (c : Char) : Bool := c = ' ' || c = '\t' || c = '\n' || c = '\r'


def skipWs (cs : Str) : Str := cs.dropWhile isJWsB


def digitVal (c : Char) : Nat := c.toNat - 48


/-- Value of a digit string, most significant digit first. -/
def digitsVal (ds : Str) : Nat := ds.foldl (fun a c => 10 * a + digitVal c) 0


def hexDig (n : Nat) : Char :=
  if n < 10 then Char.ofNat (48 + n) else Char.ofNat (87 + n)


def hex4 (n : Nat) : Str :=
  [hexDig (n / 4096 % 16), hexDig (n / 256 % 16), hexDig (n / 16 % 16), hexDig (n % 16)]


def hexVal (c : Char) : Option Nat :=
  if 48 ≤ c.toNat ∧ c.toNat ≤ 57 then some (c.toNat - 48)
  else if 97 ≤ c.toNat ∧ c.toNat ≤ 102 then some (c.toNat - 87)
  else if 65 ≤ c.toNat ∧ c.toNat ≤ 70 then some (c.toNat - 55)
  else none


/-- `json.dumps` escaping of one character (`ensure_ascii=True`): the two
JSON metacharacters, the short control escapes, `\uXXXX` for other control
and all non-ASCII characters, and surrogate pairs beyond the BMP. -/
def escChar (c : Char) : Str :=
  if c = '"' then ['\\', '"']
  else if c = '\\' then ['\\', '\\']
  else if c = '\n' then ['\\', 'n']
  else if c = '\t' then ['\\', 't']
  else if c = '\r' then ['\\', 'r']
  else if c.toNat = 8 then ['\\', 'b']
  else if c.toNat = 12 then ['\\', 'f']
  else if c.toNat < 32 then '\\' :: 'u' :: hex4 c.toNat
  else if c.toNat < 127 then [c]
  else if c.toNat < 65536 then '\\' :: 'u' :: hex4 c.toNat
  else '\\' :: 'u' :: hex4 (55296 + (c.toNat - 65536) / 1024)
    ++ '\\' :: 'u' :: hex4 (56320 + (c.toNat - 65536) % 1024)


def escape : Str → Str
  | [] => []
  | c :: cs => escChar c ++ escape cs


/-- A serialized JSON string: quote, escaped body, quote. -/
def encStr (s : Str) : Str := '"' :: escape s ++ ['"']


/-- A decimal scale large enough for the denominator of any
decimal-representable rational (for a denominator `2^a * 5^b` the floor of
its base-2 logarithm bounds both `a` and `b`). -/
def decScale (q : ℚ) : Nat := natLogAux q.den q.den


/-- The rational is an exact finite decimal at scale `decScale` — true of
every IEEE double. -/
def decRep (q : ℚ) : Prop := q.den ∣ 10 ^ decScale q


instance (q : ℚ) : Decidable (decRep q) := by unfold decRep; infer_instance


/-- Decimal digits of `n`, zero-padded on the left to width `k`. -/
def natToCharsPad (k n : Nat) : Str :=
  List.replicate (k - (natDigitsAux n n).length) '0' ++ (natDigitsAux n n).reverse


/-- Serialize a nonnegative decimal-representable rational as an exact
decimal numeral (integer digits, then a point and `decScale q` fraction
digits when the scale is positive). -/
def encNumNN (q : ℚ) : Str :=
  if decScale q = 0 then natToChars (q.num.toNat * (10 ^ decScale q / q.den))
  else
    natToChars (q.num.toNat * (10 ^ decScale q / q.den) / 10 ^ decScale q)
      ++ '.' :: natToCharsPad (decScale q)
        (q.num.toNat * (10 ^ decScale q / q.den) % 10 ^ decScale q)


/-- Serialize a decimal-representable rational. -/
def encNum (q : ℚ) : Str := if q < 0 then '-' :: encNumNN (-q) else encNumNN q


mutual
/-- Serialize a JSON value as `json.dumps` does with default options. -/
def dumps : Json → Str
  | .null => "null".data
  | .bool true => "true".data
  | .bool false => "false".data
  | .num q => encNum q
  | .str s => encStr s
  | .arr .nil => ['[', ']']
  | .arr (.cons x xs) => '[' :: dumpsElems x xs ++ [']']
  | .obj .nil => ['{', '}']
  | .obj (.cons k v ms) => '{' :: dumpsMembers k v ms ++ ['}']
termination_by j => sizeOf j
/-- Array elements joined by `", "`. -/
def dumpsElems : Json → JsonArr → Str
  | x, .nil => dumps x
  | x, .cons y ys => dumps x ++ ',' :: ' ' :: dumpsElems y ys
termination_by x xs => sizeOf x + sizeOf xs
/-- Object members `"key": value` joined by `", "`. -/
def dumpsMembers : Str → Json → JsonObj → Str
  | k, v, .nil => encStr k ++ ':' :: ' ' :: dumps v
  | k, v, .cons k2 v2 ms => encStr k ++ ':' :: ' ' :: dumps v
      ++ ',' :: ' ' :: dumpsMembers k2 v2 ms
termination_by k v ms => sizeOf v + sizeOf ms
end

def parseHex4 : Str → Option (Nat × Str)
  | a :: b :: c :: d :: rest =>
    match hexVal a, hexVal b, hexVal c, hexVal d with
    | some x, some y, some z, some w => some (((x * 16 + y) * 16 + z) * 16 + w, rest)
    | _, _, _, _ => none
  | _ => none


/-- Parse the body of a JSON string (the opening quote already consumed),
decoding escapes and recombining surrogate pairs; fuel bounds the number of
decoded characters. -/
def parseStringBody : Nat → Str → Option (Str × Str)
  | 0, _ => none
  | _ + 1, [] => none
  | fuel + 1, c :: rest =>
    if c = '"' then some ([], rest)
    else if c = '\\' then
      match rest with
      | [] => none
      | e :: r =>
        if e = '"' then (parseStringBody fuel r).map (fun p => ('"' :: p.1, p.2))
        else if e = '\\' then (parseStringBody fuel r).map (fun p => ('\\' :: p.1, p.2))
        else if e = '/' then (parseStringBody fuel r).map (fun p => ('/' :: p.1, p.2))
        else if e = 'b' then
          (parseStringBody fuel r).map (fun p => (Char.ofNat 8 :: p.1, p.2))
        else if e = 'f' then
          (parseStringBody fuel r).map (fun p => (Char.ofNat 12 :: p.1, p.2))
        else if e = 'n' then (parseStringBody fuel r).map (fun p => ('\n' :: p.1, p.2))
        else if e = 'r' then (parseStringBody fuel r).map (fun p => ('\r' :: p.1, p.2))
        else if e = 't' then (parseStringBody fuel r).map (fun p => ('\t' :: p.1, p.2))
        else if e = 'u' then
          match parseHex4 r with
          | none => none
          | some (n, r2) =>
            if 55296 ≤ n ∧ n < 56320 then
              match r2 with
              | [] => none
              | c1 :: r2a =>
                if c1 = '\\' then
                  match r2a with
                  | [] => none
                  | c2 :: r3 =>
                    if c2 = 'u' then
                      match parseHex4 r3 with
                      | none => none
                      | some (n2, r4) =>
                        if 56320 ≤ n2 ∧ n2 < 57344 then
                          (parseStringBody fuel r4).map
                            (fun p => (Char.ofNat (65536 + (n - 55296) * 1024
                              + (n2 - 56320)) :: p.1, p.2))
                        else none
                    else none
                else none
            else if 56320 ≤ n ∧ n < 57344 then none
            else (parseStringBody fuel r2).map (fun p => (Char.ofNat n :: p.1, p.2))
        else none
    else (parseStringBody fuel rest).map (fun p => (c :: p.1, p.2))


/-- Parse an optional exponent suffix (magnitude part). -/
def parseExpMag (v : ℚ) (neg : Bool) (cs : Str) : Option (ℚ × Str) :=
  if (cs.takeWhile Char.isDigit) = [] then none
  else some (v * (10 : ℚ) ^ (if neg then -((digitsVal (cs.takeWhile Char.isDigit)) : ℤ)
      else ((digitsVal (cs.takeWhile Char.isDigit)) : ℤ)),
    cs.dropWhile Char.isDigit)


def parseExp (v : ℚ) (cs : Str) : Option (ℚ × Str) :=
  match cs with
  | [] => none
  | c :: rest =>
    if c = '+' then parseExpMag v false rest
    else if c = '-' then parseExpMag v true rest
    else parseExpMag v false (c :: rest)


def parseExpOpt (v : ℚ) (cs : Str) : Option (ℚ × Str) :=
  match cs with
  | [] => some (v, [])
  | c :: rest =>
    if c = 'e' ∨ c = 'E' then parseExp v rest else some (v, c :: rest)


/-- Parse an optional fraction then an optional exponent, given the integer
part already read. -/
def parseFrac (ip : ℚ) (cs : Str) : Option (ℚ × Str) :=
  match cs with
  | [] => parseExpOpt ip []
  | c :: rest =>
    if c = '.' then
      if (rest.takeWhile Char.isDigit) = [] then none
      else
        parseExpOpt (ip + ((digitsVal (rest.takeWhile Char.isDigit)) : ℚ)
            / 10 ^ (rest.takeWhile Char.isDigit).length)
          (rest.dropWhile Char.isDigit)
    else parseExpOpt ip (c :: rest)


/-- Parse the magnitude of a JSON number: digits, an optional fraction and
an optional exponent. -/
def parseNumMag (cs : Str) : Option (ℚ × Str) :=
  if (cs.takeWhile Char.isDigit) = [] then none
  else parseFrac ((digitsVal (cs.takeWhile Char.isDigit)) : ℚ) (cs.dropWhile Char.isDigit)


def parseNumber (cs : Str) : Option (ℚ × Str) :=
  match cs with
  | [] => none
  | c :: rest =>
    if c = '-' then (parseNumMag rest).map (fun p => (-p.1, p.2))
    else parseNumMag (c :: rest)


mutual
/-- Recursive-descent JSON value parser; the fuel bounds the recursion
depth and the number of elements and members, and is decremented on every
recursive call. -/
def parseValue : Nat → Str → Option (Json × Str)
  | 0, _ => none
  | fuel + 1, cs =>
    match skipWs cs with
    | [] => none
    | c :: rest =>
      if c = 'n' then
        match rest with
        | 'u' :: 'l' :: 'l' :: r => some (.null, r)
        | _ => none
      else if c = 't' then
        match rest with
        | 'r' :: 'u' :: 'e' :: r => some (.bool true, r)
        | _ => none
      else if c = 'f' then
        match rest with
        | 'a' :: 'l' :: 's' :: 'e' :: r => some (.bool false, r)
        | _ => none
      else if c = '"' then
        (parseStringBody (rest.length + 1) rest).map (fun p => (Json.str p.1, p.2))
      else if c = '[' then
        match skipWs rest with
        | [] => (parseElems fuel []).map (fun p => (Json.arr p.1, p.2))
        | c2 :: r =>
          if c2 = ']' then some (.arr .nil, r)
          else (parseElems fuel (c2 :: r)).map (fun p => (Json.arr p.1, p.2))
      else if c = '{' then
        match skipWs rest with
        | [] => (parseMembers fuel []).map (fun p => (Json.obj p.1, p.2))
        | c2 :: r =>
          if c2 = '}' then some (.obj .nil, r)
          else (parseMembers fuel (c2 :: r)).map (fun p => (Json.obj p.1, p.2))
      else (parseNumber (c :: rest)).map (fun p => (Json.num p.1, p.2))
/-- Parse the elements of a non-empty array. -/
def parseElems : Nat → Str → Option (JsonArr × Str)
  | 0, _ => none
  | fuel + 1, cs =>
    match parseValue fuel cs with
    | none => none
    | some (v, r1) =>
      match skipWs r1 with
      | [] => none
      | c :: r2 =>
        if c = ',' then
          (parseElems fuel (skipWs r2)).map (fun p => (JsonArr.cons v p.1, p.2))
        else if c = ']' then some (JsonArr.cons v .nil, r2)
        else none
/-- Parse the members of a non-empty object. -/
def parseMembers : Nat → Str → Option (JsonObj × Str)
  | 0, _ => none
  | fuel + 1, cs =>
    match cs with
    | [] => none
    | c0 :: r0 =>
      if c0 = '"' then
        match parseStringBody (r0.length + 1) r0 with
        | none => none
        | some (key, r1) =>
          match skipWs r1 with
          | [] => none
          | c1 :: r2 =>
            if c1 = ':' then
              match parseValue fuel r2 with
              | none => none
              | some (v, r3) =>
                match skipWs r3 with
                | [] => none
                | c3 :: r4 =>
                  if c3 = ',' then
                    (parseMembers fuel (skipWs r4)).map
                      (fun p => (JsonObj.cons key v p.1, p.2))
                  else if c3 = '}' then some (JsonObj.cons key v .nil, r4)
                  else none
            else none
      else none
end

/-- `json.loads` on one line: parse one value, allow trailing whitespace,
reject trailing garbage. -/
def loads (cs : Str) : Option Json :=
  match parseValue (cs.length + 64) cs with
  | some (j, rest) => if skipWs rest = [] then some j else none
  | none => none


/-- Split a file's text into the lines Python's file iteration yields
(content without the terminator; no empty final line after a trailing
newline). -/
def pyLinesAux : Str → Str → List Str
  | [], acc => if acc = [] then [] else [acc.reverse]
  | c :: cs, acc =>
    if c = '\n' then acc.reverse :: pyLinesAux cs [] else pyLinesAux cs (c :: acc)


def pyLines (cs : Str) : List Str := pyLinesAux cs []


/-- The read loop of the preparation stage (prepare_dataset.py:93-96):
`json.loads` on every line, aborting the whole read on the first
malformed line. -/
def readJsonl (file : Str) : Option (List Json) := mapMo loads (pyLines file)


def jscalarToJson : JScalar → Json
  | .str s => .str s
  | .num q => .num q
  | .bool b => .bool b
  | .null => .null


def metaToObj : List (Str × JScalar) → JsonObj
  | [] => .nil
  | (k, v) :: rest => .cons k (jscalarToJson v) (metaToObj rest)


def optStrToJson : Option Str → Json
  | none => .null
  | some s => .str s


/-- `TrainingExample.to_dict` (collect_data.py:30-31): `asdict` preserves
the dataclass field order. -/
def exampleToDict (e : TrainingExample) : Json :=
  .obj (.cons kInputText (optStrToJson e.input_text)
    (.cons kOutputText (optStrToJson e.output_text)
    (.cons kSourceType (optStrToJson e.source_type)
    (.cons kQualityScore (.num e.quality_score)
    (.cons kMetadata
      (match e.metadata with
       | none => Json.null
       | some ms => Json.obj (metaToObj ms)) .nil)))))


/-- `save_to_jsonl` (collect_data.py:138-144): one `json.dumps` line per
example, each terminated by a newline. -/
def save_to_jsonl (examples : List TrainingExample) : Str :=
  (examples.map (fun e => dumps (exampleToDict e) ++ ['\n'])).flatten


def wfScalar : JScalar → Prop
  | .num q => decRep q
  | _ => True


/-- Well-formedness of an example for the round trip: its numeric values
are exact finite decimals, which every IEEE double is. -/
def wfExample (e : TrainingExample) : Prop :=
  decRep e.quality_score ∧
    match e.metadata with
    | none => True
    | some ms => ∀ kv ∈ ms, wfScalar kv.2


/-- Characters that may legally follow a serialized value inside a JSON
document (separator, closer, or whitespace) — or the end of input. -/
def delimOk : Str → Prop
  | [] => True
  | c :: _ => c = ',' ∨ c = '}' ∨ c = ']' ∨ isJWsB c = true


/-- Scalar JSON values (everything but arrays and objects), with the
numeric ones decimal-representable. -/
def SVal : Json → Prop
  | .null => True
  | .bool _ => True
  | .num q => decRep q
  | .str _ => True
  | .arr _ => False
  | .obj _ => False


/-- Round-trip property of a serialized value at every fuel at least `N`:
parsing `dumps v` followed by a delimited tail returns `v` and the tail. -/
def VOKge (N : Nat) (v : Json) : Prop :=
  ∀ fuel, N ≤ fuel → ∀ rest, delimOk rest →
    parseValue fuel (dumps v ++ rest) = some (v, rest)


/-- Values of an object spine all round trip at fuel `N`. -/
def MembersVOK (N : Nat) : JsonObj → Prop
  | .nil => True
  | .cons _ v t => VOKge N v ∧ MembersVOK N t


def objLen : JsonObj → Nat
  | .nil => 0
  | .cons _ _ t => objLen t + 1


/-- Number of metadata entries of an example. -/
def metaLen (e : TrainingExample) : Nat := (e.metadata.getD []).length


/-- Newline-freedom of every value on an object spine's serialization. -/
def NlFree : JsonObj → Prop
  | .nil => True
  | .cons _ v tl => '\n' ∉ dumps v ∧ NlFree tl


/-- The element at `j` consed onto `set j a` is a permutation of `a` consed
onto the original list. -/
theorem get_cons_set_perm {α : Type} :
    ∀ (l : List α) (j : Nat) (h : j < l.length) (a : α),
      (l.get ⟨j, h⟩ :: l.set j a).Perm (a :: l)
  | b :: t, 0, _, a => by
    simpa using List.Perm.swap a b t
  | b :: t, j + 1, h, a => by
    have ht : j < t.length := by simpa using Nat.lt_of_succ_lt_succ h
    have ih := get_cons_set_perm t j ht a
    have e1 : (b :: t).get ⟨j + 1, h⟩ :: (b :: t).set (j + 1) a
        = t.get ⟨j, ht⟩ :: b :: t.set j a := by simp
    rw [e1]
    exact ((List.Perm.swap b _ _).trans (ih.cons b)).trans (List.Perm.swap a b t)


/-- `listSwap` permutes the list. -/
theorem listSwap_perm {α : Type} : ∀ (l : List α) (i j : Nat), (listSwap l i j).Perm l := by
  intro l
  induction l with
  | nil => intro i j; simp [listSwap]
  | cons a t ih =>
    intro i j
    match i, j with
    | 0, 0 => simp [listSwap]
    | 0, k + 1 =>
      rw [listSwap]
      cases hk : t[k]? with
      | none => simp [hk]
      | some b =>
        have hkl : k < t.length := by
          have := List.getElem?_eq_some_iff.mp hk
          exact this.1
        have hb : t.get ⟨k, hkl⟩ = b := by
          have := List.getElem?_eq_some_iff.mp hk
          obtain ⟨h, hv⟩ := this
          simpa using hv
        simp only [List.getElem?_cons_zero, List.getElem?_cons_succ, hk,
          List.set_cons_zero, List.set_cons_succ]
        have := get_cons_set_perm t k hkl a
        rw [hb] at this
        exact this
    | m + 1, 0 =>
      rw [listSwap]
      cases hm : t[m]? with
      | none => simp [hm]
      | some b =>
        have hml : m < t.length := (List.getElem?_eq_some_iff.mp hm).1
        have hb : t.get ⟨m, hml⟩ = b := by
          obtain ⟨h, hv⟩ := List.getElem?_eq_some_iff.mp hm
          simpa using hv
        simp only [List.getElem?_cons_succ, List.getElem?_cons_zero, hm,
          List.set_cons_succ, List.set_cons_zero]
        have := get_cons_set_perm t m hml a
        rw [hb] at this
        exact this
    | m + 1, k + 1 =>
      rw [listSwap]
      cases hm : t[m]? with
      | none => simp [hm]
      | some x =>
        cases hk : t[k]? with
        | none => simp [hm, hk]
        | some y =>
          simp only [List.getElem?_cons_succ, hm, hk, List.set_cons_succ]
          have := ih m k
          rw [listSwap, hm, hk] at this
          exact this.cons a


/-- The Fisher–Yates loop permutes the list. -/
theorem shuffleAux_perm {α : Type} : ∀ (i s : Nat) (l : List α), (shuffleAux i s l).Perm l := by
  intro i
  induction i with
  | zero => intro s l; simp [shuffleAux]
  | succ n ih =>
    intro s l
    rw [shuffleAux]
    exact (ih _ _).trans (listSwap_perm l _ _)


/-- The seeded shuffle permutes its input. -/
theorem pyShuffle_perm {α : Type} (seed : Nat) (l : List α) : (pyShuffle seed l).Perm l :=
  shuffleAux_perm _ _ _


theorem pyShuffle_length {α : Type} (seed : Nat) (l : List α) :
    (pyShuffle seed l).length = l.length :=
  (pyShuffle_perm seed l).length_eq


/-- The two Python slices at the same index always reassemble the list. -/
theorem pySlice_append {α : Type} (l : List α) (k : ℤ) :
    pySliceTo l k ++ pySliceFrom l k = l := by
  unfold pySliceTo pySliceFrom
  by_cases h : 0 ≤ k <;> simp [h]


/-- With fuel at least `n`, `natLogAux` brackets `n` between consecutive
powers of two. -/
theorem natLogAux_spec : ∀ (f n : Nat), 1 ≤ n → n ≤ f →
    2 ^ natLogAux f n ≤ n ∧ n < 2 ^ (natLogAux f n + 1) := by
  intro f
  induction f with
  | zero => intro n h1 h2; omega
  | succ f ih =>
    intro n h1 h2
    simp only [natLogAux]
    by_cases hn : n ≤ 1
    · have hone : n = 1 := by omega
      subst hone
      norm_num
    · rw [if_neg hn]
      have h1m : 1 ≤ n / 2 := by omega
      have h2m : n / 2 ≤ f := by omega
      obtain ⟨ha, hb⟩ := ih (n / 2) h1m h2m
      have hp1 : 2 ^ (natLogAux f (n / 2) + 1) = 2 * 2 ^ natLogAux f (n / 2) := by ring
      have hp2 : 2 ^ (natLogAux f (n / 2) + 1 + 1) = 2 * 2 ^ (natLogAux f (n / 2) + 1) := by
        ring
      omega


/-- `rne` is the identity on integers. -/
theorem rne_intCast (m : ℤ) : rne (m : ℚ) = m := by
  rw [rne]
  norm_num


/-- Useful reformulation: `rne` on a natural-number cast. -/
theorem rne_natCast (m : ℕ) : rne (m : ℚ) = m := by
  have := rne_intCast (m : ℤ)
  rwa [Int.cast_natCast] at this


/-- Evaluation rule for `rne` when the fractional part is below one half. -/
theorem rne_eq_low (x : ℚ) (n : ℤ) (hf : ⌊x⌋ = n) (hlt : x - n < 1 / 2) : rne x = n := by
  rw [rne, hf, if_pos hlt]


/-- Evaluation rule for `rne` when the fractional part is above one half. -/
theorem rne_eq_high (x : ℚ) (n : ℤ) (hf : ⌊x⌋ = n) (hgt : 1 / 2 < x - n) : rne x = n + 1 := by
  rw [rne, hf, if_neg (by linarith), if_pos hgt]


/-- Evaluation rule for `rne` at a tie with an odd floor: round up to even. -/
theorem rne_eq_tie_odd (x : ℚ) (n : ℤ) (hf : ⌊x⌋ = n) (heq : x - n = 1 / 2)
    (hodd : ¬ Even n) : rne x = n + 1 := by
  rw [rne, hf, if_neg (by rw [heq]; exact lt_irrefl _),
    if_neg (by rw [heq]; exact lt_irrefl _), if_neg hodd]


/-- Evaluation rule for `ratLog2` at a rational that is at least one. -/
theorem ratLog2_eq_of_ge1 (q : ℚ) (c : ℕ) (h1 : 1 ≤ q) (hc : ⌊q⌋₊ = c) :
    ratLog2 q = natLogAux c c := by
  rw [ratLog2, if_pos h1, hc]


/-- Evaluation rule for `ratLog2` at a positive rational below one. -/
theorem ratLog2_eq_of_lt1 (q : ℚ) (c : ℕ) (h1 : ¬ 1 ≤ q) (hc : ⌈q⁻¹⌉₊ = c) :
    ratLog2 q = -(natClogAux c c) := by
  rw [ratLog2, if_neg h1, hc]


/-- Evaluation rule for `fl` at a positive rational, given its exponent and
rounded significand. -/
theorem fl_eq_pos (x : ℚ) (e m : ℤ) (h0 : 0 < x) (he : ratLog2 x = e)
    (hm : rne (x * 2 ^ ((52 : ℤ) - e)) = m) : fl x = m * 2 ^ (e - (52 : ℤ)) := by
  rw [fl, if_neg (ne_of_gt h0), if_neg (not_lt.mpr h0.le), abs_of_pos h0, he, hm, one_mul]


/-- `fl` is exact on natural numbers below `2 ^ 53` (the significand width):
converting such a list length to a double is lossless. -/
theorem fl_natCast (n : ℕ) (h : n < 2 ^ 53) : fl (n : ℚ) = n := by
  rcases Nat.eq_zero_or_pos n with h0 | h0
  · subst h0; simp [fl]
  · have hq1 : (1 : ℚ) ≤ (n : ℚ) := by exact_mod_cast h0
    have he : ratLog2 (n : ℚ) = natLogAux n n :=
      ratLog2_eq_of_ge1 _ n hq1 (Nat.floor_natCast n)
    obtain ⟨hlo, hhi⟩ := natLogAux_spec n n h0 le_rfl
    have hL52 : natLogAux n n ≤ 52 := by
      by_contra hgt
      have : 2 ^ 53 ≤ 2 ^ natLogAux n n := Nat.pow_le_pow_right (by norm_num) (by omega)
      omega
    set L := natLogAux n n with hLdef
    have hd : (52 : ℤ) - L = ((52 - L : ℕ) : ℤ) := by omega
    have hm : rne ((n : ℚ) * 2 ^ ((52 : ℤ) - L)) = ((n * 2 ^ (52 - L) : ℕ) : ℤ) := by
      rw [hd, zpow_natCast]
      have : (n : ℚ) * 2 ^ (52 - L) = ((n * 2 ^ (52 - L) : ℕ) : ℚ) := by push_cast; ring
      rw [this, rne_natCast]
    have := fl_eq_pos (n : ℚ) L ((n * 2 ^ (52 - L) : ℕ) : ℤ)
      (by exact_mod_cast h0) (by rw [he]) hm
    rw [this]
    have hsplit : ((L : ℤ) - 52) = -(((52 - L : ℕ) : ℤ)) := by omega
    rw [hsplit, zpow_neg, zpow_natCast]
    push_cast
    rw [mul_assoc, mul_inv_cancel₀ (by positivity), mul_one]


theorem fl_zero : fl 0 = 0 := by simp [fl]


/-- The double nearest 9/10 (the default train ratio as parsed from the
command line). -/
theorem fl_nine_tenths : fl (9 / 10) = 8106479329266893 / 9007199254740992 := by
  have he : ratLog2 (9 / 10 : ℚ) = -1 := by
    have h := ratLog2_eq_of_lt1 (9 / 10 : ℚ) 2 (by norm_num)
      (by rw [Nat.ceil_eq_iff (by norm_num)]; norm_num)
    rw [h, show natClogAux 2 2 = 1 from rfl]
    norm_num
  have hm : rne ((9 / 10 : ℚ) * 2 ^ ((52 : ℤ) - (-1))) = 8106479329266893 := by
    have hx : (9 / 10 : ℚ) * 2 ^ ((52 : ℤ) - (-1)) = 81064793292668928 / 10 := by norm_num
    rw [hx]
    have := rne_eq_high (81064793292668928 / 10) 8106479329266892
      (by rw [Int.floor_eq_iff]; norm_num) (by norm_num)
    rw [this]
    norm_num
  have := fl_eq_pos (9 / 10) (-1) 8106479329266893 (by norm_num) he hm
  rw [this]
  norm_num


/-- Converting the length 10 to a double is exact. -/
theorem fl_ten : fl 10 = 10 := by
  have he : ratLog2 (10 : ℚ) = 3 := by
    have h := ratLog2_eq_of_ge1 (10 : ℚ) 10 (by norm_num) (by norm_num)
    rw [h, show natLogAux 10 10 = 3 from rfl]
    norm_num
  have hm : rne ((10 : ℚ) * 2 ^ ((52 : ℤ) - 3)) = 5629499534213120 := by
    have hx : (10 : ℚ) * 2 ^ ((52 : ℤ) - 3) = 5629499534213120 := by norm_num
    rw [hx]
    exact rne_eq_low _ _ (by rw [Int.floor_eq_iff]; norm_num) (by norm_num)
  have := fl_eq_pos 10 3 5629499534213120 (by norm_num) he hm
  rw [this]
  norm_num


/-- `10 * fl(0.9)` rounds to exactly 9.0, so the default 10-example split
cuts at index 9. -/
theorem fl_prod_nine : fl ((10 : ℚ) * fl (9 / 10)) = 9 := by
  rw [fl_nine_tenths]
  have harg : (10 : ℚ) * (8106479329266893 / 9007199254740992)
      = 81064793292668930 / 9007199254740992 := by norm_num
  rw [harg]
  have he : ratLog2 ((81064793292668930 : ℚ) / 9007199254740992) = 3 := by
    have h := ratLog2_eq_of_ge1 ((81064793292668930 : ℚ) / 9007199254740992) 9 (by norm_num)
      (by rw [Nat.floor_eq_iff (by positivity)]; norm_num)
    rw [h, show natLogAux 9 9 = 3 from rfl]
    norm_num
  have hm : rne (((81064793292668930 : ℚ) / 9007199254740992) * 2 ^ ((52 : ℤ) - 3))
      = 5066549580791808 := by
    have hx : ((81064793292668930 : ℚ) / 9007199254740992) * 2 ^ ((52 : ℤ) - 3)
        = 81064793292668930 / 16 := by norm_num
    rw [hx]
    exact rne_eq_low _ _ (by rw [Int.floor_eq_iff]; norm_num) (by norm_num)
  have := fl_eq_pos _ 3 5066549580791808 (by positivity) he hm
  rw [this]
  norm_num


/-- The double nearest 7/10. -/
theorem fl_seven_tenths : fl (7 / 10) = 6305039478318694 / 9007199254740992 := by
  have he : ratLog2 (7 / 10 : ℚ) = -1 := by
    have h := ratLog2_eq_of_lt1 (7 / 10 : ℚ) 2 (by norm_num)
      (by rw [Nat.ceil_eq_iff (by norm_num)]; norm_num)
    rw [h, show natClogAux 2 2 = 1 from rfl]
    norm_num
  have hm : rne ((7 / 10 : ℚ) * 2 ^ ((52 : ℤ) - (-1))) = 6305039478318694 := by
    have hx : (7 / 10 : ℚ) * 2 ^ ((52 : ℤ) - (-1)) = 63050394783186944 / 10 := by norm_num
    rw [hx]
    exact rne_eq_low _ _ (by rw [Int.floor_eq_iff]; norm_num) (by norm_num)
  have := fl_eq_pos (7 / 10) (-1) 6305039478318694 (by norm_num) he hm
  rw [this]
  norm_num


/-- `10 * fl(0.7)` is exactly halfway between two doubles and rounds UP to
exactly 7.0 (ties to even), although its true value is below 7. -/
theorem fl_prod_seven : fl ((10 : ℚ) * fl (7 / 10)) = 7 := by
  rw [fl_seven_tenths]
  have harg : (10 : ℚ) * (6305039478318694 / 9007199254740992)
      = 63050394783186940 / 9007199254740992 := by norm_num
  rw [harg]
  have he : ratLog2 ((63050394783186940 : ℚ) / 9007199254740992) = 2 := by
    have h := ratLog2_eq_of_ge1 ((63050394783186940 : ℚ) / 9007199254740992) 6 (by norm_num)
      (by rw [Nat.floor_eq_iff (by positivity)]; norm_num)
    rw [h, show natLogAux 6 6 = 2 from rfl]
    norm_num
  have hm : rne (((63050394783186940 : ℚ) / 9007199254740992) * 2 ^ ((52 : ℤ) - 2))
      = 7881299347898368 := by
    have hx : ((63050394783186940 : ℚ) / 9007199254740992) * 2 ^ ((52 : ℤ) - 2)
        = 63050394783186940 / 8 := by norm_num
    rw [hx]
    have := rne_eq_tie_odd (63050394783186940 / 8) 7881299347898367
      (by rw [Int.floor_eq_iff]; norm_num) (by norm_num) (by decide)
    rw [this]
    norm_num
  have := fl_eq_pos _ 2 7881299347898368 (by positivity) he hm
  rw [this]
  norm_num


/-- The validation split length is always the complement of the train
split length. -/
theorem split_val_length {α : Type} (seed : Nat) (l : List α) (ρ : ℚ) :
    (split_dataset seed l ρ).2.length = l.length - (split_dataset seed l ρ).1.length := by
  simp only [split_dataset, pySliceTo, pySliceFrom]
  by_cases h : 0 ≤ pyTrunc (fl (fl (l.length : ℚ) * ρ))
  · simp only [if_pos h, List.length_take, List.length_drop, pyShuffle_length]
    omega
  · simp only [if_neg h, List.length_take, List.length_drop, pyShuffle_length]
    omega


/-- For a nonnegative cut index the train split is the clamped prefix. -/
theorem split_train_length {α : Type} (seed : Nat) (l : List α) (ρ : ℚ)
    (h : 0 ≤ pyTrunc (fl (fl (l.length : ℚ) * ρ))) :
    (split_dataset seed l ρ).1.length
      = min (pyTrunc (fl (fl (l.length : ℚ) * ρ))).toNat l.length := by
  simp only [split_dataset, pySliceTo, if_pos h, List.length_take, pyShuffle_length]


/-- C1: split determinism — two invocations of the preparation stage's
split on the identical input collection with the same ratio and the same
seed produce identical train sequences and identical validation sequences.
In the embedding the seeded pseudorandom stream is an explicit function of
the seed, so the split is a pure function of `(seed, ratio, input)`. -/
theorem claim_C1_split_determinism (seed : Nat) (ρ : ℚ) (l₁ l₂ : List Json)
    (h : l₁ = l₂) : split_dataset seed l₁ ρ = split_dataset seed l₂ ρ := by
  rw [h]


/-- Witness for C1 at a concrete collection, ratio and seed. -/
theorem claim_C1_witness :
    [Json.null] = [Json.null]
    ∧ split_dataset 42 [Json.null] (fl (9 / 10)) = split_dataset 42 [Json.null] (fl (9 / 10)) :=
  ⟨rfl, claim_C1_split_determinism 42 (fl (9 / 10)) [Json.null] [Json.null] rfl⟩


/-- C3: split completeness — for every input collection, ratio and seed the
two splits are complementary segments of the shuffled list, their
concatenation is a permutation (multiset equality) of the input, and their
lengths sum to `N`. -/
theorem claim_C3_split_completeness (seed : Nat) (ρ : ℚ) (l : List Json) :
    (split_dataset seed l ρ).1 ++ (split_dataset seed l ρ).2 = pyShuffle seed l
    ∧ ((split_dataset seed l ρ).1 ++ (split_dataset seed l ρ).2).Perm l
    ∧ (split_dataset seed l ρ).1.length + (split_dataset seed l ρ).2.length = l.length := by
  have happ : (split_dataset seed l ρ).1 ++ (split_dataset seed l ρ).2 = pyShuffle seed l := by
    simp only [split_dataset]
    exact pySlice_append _ _
  refine ⟨happ, ?_, ?_⟩
  · rw [happ]; exact pyShuffle_perm seed l
  · have := congrArg List.length happ
    rw [List.length_append, pyShuffle_length] at this
    exact this


/-- C4 (amended): the cut index is `int()` of the double-precision product
`fl(fl(N) * ρ)` — the floor of the rounded product, not the exact rational
floor.  For a nonnegative index `|train| = min(index, N)` and always
`|validation| = N - |train|`; with N = 10 and ρ the double nearest 0.9 the
split is 9/1; N = 0 gives two empty splits; ρ = 1.0 empties the validation
split (for any length below 2^53); ρ = 0.0 empties the train split. -/
theorem claim_C4_split_sizes :
    (∀ (seed : Nat) (ρ : ℚ) (l : List Json),
      (0 ≤ pyTrunc (fl (fl (l.length : ℚ) * ρ)) →
        (split_dataset seed l ρ).1.length
          = min (pyTrunc (fl (fl (l.length : ℚ) * ρ))).toNat l.length)
      ∧ (split_dataset seed l ρ).2.length = l.length - (split_dataset seed l ρ).1.length)
    ∧ (∀ (seed : Nat) (l : List Json), l.length = 10 →
        (split_dataset seed l (fl (9 / 10))).1.length = 9
        ∧ (split_dataset seed l (fl (9 / 10))).2.length = 1)
    ∧ (∀ (seed : Nat) (ρ : ℚ), split_dataset seed ([] : List Json) ρ = ([], []))
    ∧ (∀ (seed : Nat) (l : List Json), l.length < 2 ^ 53 →
        (split_dataset seed l 1).2 = [])
    ∧ (∀ (seed : Nat) (l : List Json), (split_dataset seed l 0).1 = []) := by
  refine ⟨fun seed ρ l => ⟨split_train_length seed l ρ, split_val_length seed l ρ⟩,
    ?_, ?_, ?_, ?_⟩
  · intro seed l hlen
    have hk : pyTrunc (fl (fl (l.length : ℚ) * fl (9 / 10))) = 9 := by
      rw [hlen]
      have hc : ((10 : ℕ) : ℚ) = 10 := by norm_num
      rw [hc, fl_ten, fl_prod_nine, pyTrunc, if_pos (by norm_num)]
      norm_num
    have h0 : 0 ≤ pyTrunc (fl (fl (l.length : ℚ) * fl (9 / 10))) := by rw [hk]; norm_num
    have htr := split_train_length seed l (fl (9 / 10)) h0
    rw [hk, hlen] at htr
    have htr9 : (split_dataset seed l (fl (9 / 10))).1.length = 9 := by
      rw [htr]; rfl
    refine ⟨htr9, ?_⟩
    have := split_val_length seed l (fl (9 / 10))
    rw [htr9, hlen] at this
    exact this
  · intro seed ρ
    have hk : pyTrunc (fl (fl ((([] : List Json).length : ℕ) : ℚ) * ρ)) = 0 := by
      simp only [List.length_nil, Nat.cast_zero, fl_zero, zero_mul, fl_zero]
      rw [pyTrunc, if_pos le_rfl]
      norm_num
    simp only [split_dataset, hk, pyShuffle, shuffleAux, pySliceTo, pySliceFrom]
    rfl
  · intro seed l hlen
    have hk : pyTrunc (fl (fl (l.length : ℚ) * 1)) = (l.length : ℤ) := by
      rw [mul_one, fl_natCast l.length hlen, fl_natCast l.length hlen, pyTrunc,
        if_pos (by positivity), Int.floor_natCast]
    simp only [split_dataset, hk, pySliceFrom, if_pos (Int.natCast_nonneg l.length),
      Int.toNat_natCast]
    exact List.drop_eq_nil_of_le (le_of_eq (pyShuffle_length seed l))
  · intro seed l
    have hk : pyTrunc (fl (fl (l.length : ℚ) * 0)) = 0 := by
      rw [mul_zero, fl_zero, pyTrunc, if_pos le_rfl]
      norm_num
    simp only [split_dataset, hk, pySliceTo, if_pos le_rfl]
    rfl


/-- Witness for C4 at concrete inputs discharging each hypothesis. -/
theorem claim_C4_witness :
    (List.replicate 10 Json.null).length = 10
    ∧ (List.replicate 3 Json.null).length < 2 ^ 53
    ∧ (split_dataset 42 (List.replicate 10 Json.null) (fl (9 / 10))).1.length = 9
    ∧ (split_dataset 42 (List.replicate 10 Json.null) (fl (9 / 10))).2.length = 1
    ∧ split_dataset 7 ([] : List Json) (fl (9 / 10)) = ([], [])
    ∧ (split_dataset 3 (List.replicate 3 Json.null) 1).2 = []
    ∧ (split_dataset 3 (List.replicate 3 Json.null) 0).1 = [] := by
  refine ⟨by simp, by simp, ?_, ?_, ?_, ?_, ?_⟩
  · exact (claim_C4_split_sizes.2.1 42 _ (by simp)).1
  · exact (claim_C4_split_sizes.2.1 42 _ (by simp)).2
  · exact claim_C4_split_sizes.2.2.1 7 (fl (9 / 10))
  · exact claim_C4_split_sizes.2.2.2.1 3 _ (by simp)
  · exact claim_C4_split_sizes.2.2.2.2 3 _


/-- Counterexample for C4 as stated: at N = 10 and ρ the double nearest
0.7 (a ratio in (0,1)), the code cuts at index 7 — the product rounds up to
exactly 7.0 and `int()` returns 7 — while the exact rational floor of
ρ · N is 6. -/
theorem claim_C4_counterexample :
    (split_dataset 0 (List.replicate 10 Json.null) (fl (7 / 10))).1.length = 7
    ∧ ⌊fl (7 / 10) * (10 : ℚ)⌋ = 6 := by
  constructor
  · have hk : pyTrunc (fl (fl ((List.replicate 10 Json.null).length : ℚ) * fl (7 / 10)))
        = 7 := by
      simp only [List.length_replicate]
      have hc : ((10 : ℕ) : ℚ) = 10 := by norm_num
      rw [hc, fl_ten, fl_prod_seven, pyTrunc, if_pos (by norm_num)]
      norm_num
    have h0 : 0 ≤ pyTrunc (fl (fl ((List.replicate 10 Json.null).length : ℚ) * fl (7 / 10))) := by
      rw [hk]; norm_num
    have := split_train_length 0 (List.replicate 10 Json.null) (fl (7 / 10)) h0
    rw [hk] at this
    rw [this]
    rfl
  · rw [fl_seven_tenths, Int.floor_eq_iff]
    norm_num


/-- C5: quality filter correctness — for every collection and threshold the
filter retains exactly the examples with `quality_score ≥ τ` (as a count
identity, also under duplicates), keeps the survivors in their relative
order (sublist), and a threshold above 1 may produce the empty collection,
which is a value, not an error. -/
theorem claim_C5_quality_filter :
    (∀ (τ : ℚ) (l : List TrainingExample),
      (filter_by_quality τ l).Sublist l
      ∧ (∀ e, e ∈ filter_by_quality τ l ↔ e ∈ l ∧ τ ≤ e.quality_score)
      ∧ (∀ e, (filter_by_quality τ l).count e
          = if τ ≤ e.quality_score then l.count e else 0))
    ∧ filter_by_quality 2 [⟨none, none, none, 1, none⟩] = [] := by
  constructor
  · intro τ l
    refine ⟨List.filter_sublist l, ?_, ?_⟩
    · intro e
      simp [filter_by_quality, List.mem_filter]
    · intro e
      by_cases h : τ ≤ e.quality_score
      · rw [if_pos h]
        exact List.count_filter (by simpa using h)
      · rw [if_neg h]
        refine List.count_eq_zero_of_not_mem ?_
        simp only [filter_by_quality, List.mem_filter, decide_eq_true_eq]
        exact fun hc => h hc.2
  · rfl


/-- C10: implicit zero-score coercion — `quality_score or 1.0` maps both a
stored 0 and a stored `NULL` to 1.0, so an explicitly zero-scored
labeled-pairs row is emitted with score 1.0 and survives the quality filter
at every threshold `τ ≤ 1`. -/
theorem claim_C10_zero_score_coercion :
    (∀ r : PairRow, r.quality_score = some 0 ∨ r.quality_score = none →
      (pairRowToExample r).quality_score = 1)
    ∧ (∀ (rows : List PairRow) (τ : ℚ) (r : PairRow), τ ≤ 1 → r ∈ rows →
        pairRowKeep r = true → r.quality_score = some 0 →
        pairRowToExample r ∈ filter_by_quality τ (collect_from_training_pairs rows)) := by
  have hone : ∀ r : PairRow, r.quality_score = some 0 ∨ r.quality_score = none →
      (pairRowToExample r).quality_score = 1 := by
    intro r h
    rcases h with h | h <;> simp [pairRowToExample, h]
  refine ⟨hone, ?_⟩
  intro rows τ r hτ hr hkeep hzero
  have hmem : pairRowToExample r ∈ collect_from_training_pairs rows := by
    unfold collect_from_training_pairs
    exact List.mem_map_of_mem _ (List.mem_filter.mpr ⟨hr, hkeep⟩)
  unfold filter_by_quality
  refine List.mem_filter.mpr ⟨hmem, ?_⟩
  rw [hone r (Or.inl hzero)]
  simpa using hτ


/-- Witness for C10 at a concrete store row with stored score 0. -/
theorem claim_C10_witness :
    ((1 : ℚ) ≤ 1
    ∧ (⟨some ['a'], some ['b'], none, some 0, none⟩ : PairRow)
        ∈ [(⟨some ['a'], some ['b'], none, some 0, none⟩ : PairRow)]
    ∧ pairRowKeep ⟨some ['a'], some ['b'], none, some 0, none⟩ = true
    ∧ (⟨some ['a'], some ['b'], none, some 0, none⟩ : PairRow).quality_score = some 0)
    ∧ pairRowToExample ⟨some ['a'], some ['b'], none, some 0, none⟩
        ∈ filter_by_quality 1
          (collect_from_training_pairs [⟨some ['a'], some ['b'], none, some 0, none⟩]) :=
  ⟨⟨le_refl 1, List.mem_singleton.mpr rfl, rfl, rfl⟩,
    claim_C10_zero_score_coercion.2 _ 1 _ (le_refl 1)
      (List.mem_singleton.mpr rfl) rfl rfl⟩


/-- C2 (amended): every example emitted by the published-content source has
non-null, non-empty `input_text` and `output_text`; the labeled-pairs
source guarantees this only for `output_text` — a row with a null or empty
`input_text` but a valid `output_text` is emitted with its `input_text`
unchanged. -/
theorem claim_C2_aggregator_nonnull :
    (∀ (rows : List BlogRow), ∀ e ∈ collect_from_blog_posts rows,
      (∃ s, e.input_text = some s ∧ s ≠ [])
      ∧ (∃ t, e.output_text = some t ∧ t ≠ []))
    ∧ (∀ (rows : List PairRow), ∀ e ∈ collect_from_training_pairs rows,
      ∃ t, e.output_text = some t ∧ t ≠ []) := by
  constructor
  · intro rows e he
    unfold collect_from_blog_posts at he
    obtain ⟨r, _, hr⟩ := List.mem_filterMap.mp he
    unfold blogRowToExample at hr
    cases hraw : r.raw_transcription with
    | none => rw [hraw] at hr; cases hr
    | some raw =>
      cases hfin : r.final_content with
      | none => rw [hraw, hfin] at hr; cases hr
      | some fin =>
        rw [hraw, hfin] at hr
        dsimp only at hr
        by_cases hne : raw ≠ [] ∧ fin ≠ []
        · rw [if_pos hne] at hr
          cases hr
          exact ⟨⟨raw, rfl, hne.1⟩, ⟨fin, rfl, hne.2⟩⟩
        · rw [if_neg hne] at hr; cases hr
  · intro rows e he
    unfold collect_from_training_pairs at he
    obtain ⟨r, hrmem, hre⟩ := List.mem_map.mp he
    have hkeep := (List.mem_filter.mp hrmem).2
    unfold pairRowKeep at hkeep
    cases hout : r.output_text with
    | none => rw [hout] at hkeep; cases hkeep
    | some t =>
      rw [hout] at hkeep
      refine ⟨t, ?_, by simpa using hkeep⟩
      rw [← hre]
      simp [pairRowToExample, hout]


/-- Witness for C2 at concrete store contents. -/
theorem claim_C2_witness :
    ((⟨some ['r'], some ['f'], none, 1, "published".data⟩ : BlogRow)
        ∈ [(⟨some ['r'], some ['f'], none, 1, "published".data⟩ : BlogRow)])
    ∧ (∀ e ∈ collect_from_blog_posts [⟨some ['r'], some ['f'], none, 1, "published".data⟩],
        (∃ s, e.input_text = some s ∧ s ≠ []) ∧ (∃ t, e.output_text = some t ∧ t ≠ []))
    ∧ (∀ e ∈ collect_from_training_pairs [(⟨none, some ['x'], none, none, none⟩ : PairRow)],
        ∃ t, e.output_text = some t ∧ t ≠ []) :=
  ⟨List.mem_singleton.mpr rfl,
    claim_C2_aggregator_nonnull.1 [⟨some ['r'], some ['f'], none, 1, "published".data⟩],
    claim_C2_aggregator_nonnull.2 [⟨none, some ['x'], none, none, none⟩]⟩


/-- Counterexample for C2 as stated: a labeled-pairs row whose `input_text`
is the empty string (a row "lacking" that text field) and whose
`output_text` is valid is NOT dropped — the aggregator emits one
`TrainingExample` for it, with the empty `input_text` intact. -/
theorem claim_C2_counterexample :
    collect_from_training_pairs [⟨some [], some ['x'], none, none, none⟩]
      = [⟨some [], some ['x'], none, 1, some []⟩]
    ∧ (⟨some [], some ['x'], none, 1, some []⟩ : TrainingExample).input_text = some [] :=
  ⟨rfl, rfl⟩


/-- Evaluation of the formatter on a record whose two required keys are
present. -/
theorem format_as_instruction_eq (ms : JsonObj) (i o : Json)
    (hi : jObjGet ms kInputText = some i) (ho : jObjGet ms kOutputText = some o) :
    format_as_instruction (Json.obj ms)
      = some (Json.obj (.cons kInstruction (.str instructionText)
          (.cons kInput i (.cons kOutput o
          (.cons kSource ((jObjGet ms kSourceType).getD (.str unknownChars)) .nil))))) := by
  unfold format_as_instruction
  dsimp only
  rw [hi, ho]


/-- C6 (amended): the formatted record's `source` equals the record's
`source_type` value whenever that key is present — even when the value is
the empty string or null — and equals the literal "unknown" exactly when
the key is absent (`dict.get` semantics); the default is applied record by
record. -/
theorem claim_C6_source_default (ms : JsonObj) (f : Json)
    (h : format_as_instruction (Json.obj ms) = some f) :
    ∃ i o, jObjGet ms kInputText = some i ∧ jObjGet ms kOutputText = some o
      ∧ f = Json.obj (.cons kInstruction (.str instructionText)
          (.cons kInput i (.cons kOutput o
          (.cons kSource ((jObjGet ms kSourceType).getD (.str unknownChars)) .nil)))) := by
  cases hi : jObjGet ms kInputText with
  | none =>
    unfold format_as_instruction at h
    dsimp only at h
    rw [hi] at h
    cases h
  | some i =>
    cases ho : jObjGet ms kOutputText with
    | none =>
      unfold format_as_instruction at h
      dsimp only at h
      rw [hi, ho] at h
      cases h
    | some o =>
      refine ⟨i, o, rfl, rfl, ?_⟩
      rw [format_as_instruction_eq ms i o hi ho] at h
      exact Option.some.inj h.symm


/-- Witness for C6: a record without a `source_type` key formats with the
"unknown" sentinel. -/
theorem claim_C6_witness :
    format_as_instruction (Json.obj (.cons kInputText (.str ['a'])
        (.cons kOutputText (.str ['b']) .nil)))
      = some (Json.obj (.cons kInstruction (.str instructionText)
          (.cons kInput (.str ['a']) (.cons kOutput (.str ['b'])
          (.cons kSource (.str unknownChars) .nil)))))
    ∧ ∃ i o,
      jObjGet (.cons kInputText (.str ['a']) (.cons kOutputText (.str ['b']) .nil))
          kInputText = some i
      ∧ jObjGet (.cons kInputText (.str ['a']) (.cons kOutputText (.str ['b']) .nil))
          kOutputText = some o
      ∧ Json.obj (.cons kInstruction (.str instructionText)
          (.cons kInput (.str ['a']) (.cons kOutput (.str ['b'])
          (.cons kSource (.str unknownChars) .nil))))
        = Json.obj (.cons kInstruction (.str instructionText)
          (.cons kInput i (.cons kOutput o
          (.cons kSource ((jObjGet (.cons kInputText (.str ['a'])
              (.cons kOutputText (.str ['b']) .nil)) kSourceType).getD
            (.str unknownChars)) .nil)))) :=
  ⟨rfl, claim_C6_source_default _ _ rfl⟩


/-- Counterexample for C6 as stated: a record whose `source_type` is
present but EMPTY is formatted with `source = ""`, not with the "unknown"
default — `dict.get` only substitutes the default for an absent key. -/
theorem claim_C6_counterexample :
    format_as_instruction (Json.obj (.cons kInputText (.str ['a'])
        (.cons kOutputText (.str ['b']) (.cons kSourceType (.str []) .nil))))
      = some (Json.obj (.cons kInstruction (.str instructionText)
          (.cons kInput (.str ['a']) (.cons kOutput (.str ['b'])
          (.cons kSource (.str []) .nil)))))
    ∧ ([] : Str) ≠ unknownChars :=
  ⟨rfl, by decide⟩


/-- C7: formatting purity — over any record list whose records carry the
two required text keys, formatting succeeds, is one-to-one and
order-preserving (element `i` of the output is the image of element `i` of
the input), never drops or merges records, and copies `input_text` and
`output_text` into `input` and `output` unchanged. -/
theorem claim_C7_formatting_purity (records : List Json)
    (h : ∀ r ∈ records, ∃ ms, r = Json.obj ms
      ∧ (jObjGet ms kInputText).isSome ∧ (jObjGet ms kOutputText).isSome) :
    ∃ out, formatAll records = some out ∧ out.length = records.length
      ∧ List.Forall₂ (fun r f => ∀ ms, r = Json.obj ms →
          f = Json.obj (.cons kInstruction (.str instructionText)
            (.cons kInput ((jObjGet ms kInputText).getD .null)
            (.cons kOutput ((jObjGet ms kOutputText).getD .null)
            (.cons kSource ((jObjGet ms kSourceType).getD (.str unknownChars)) .nil)))))
        records out := by
  induction records with
  | nil => exact ⟨[], rfl, rfl, List.Forall₂.nil⟩
  | cons r rs ih =>
    obtain ⟨ms, hr, hi, ho⟩ := h r (List.mem_cons_self r rs)
    obtain ⟨i, hi'⟩ := Option.isSome_iff_exists.mp hi
    obtain ⟨o, ho'⟩ := Option.isSome_iff_exists.mp ho
    obtain ⟨out, hout, hlen, hfa⟩ := ih (fun x hx => h x (List.mem_cons_of_mem r hx))
    refine ⟨Json.obj (.cons kInstruction (.str instructionText)
        (.cons kInput i (.cons kOutput o
        (.cons kSource ((jObjGet ms kSourceType).getD (.str unknownChars)) .nil)))) :: out,
      ?_, by simp [hlen], ?_⟩
    · unfold formatAll at hout ⊢
      rw [mapMo, hr, format_as_instruction_eq ms i o hi' ho', hout]
      rfl
    · refine List.Forall₂.cons ?_ hfa
      intro ms' hms'
      rw [hr] at hms'
      cases hms'
      rw [hi', ho']
      rfl


theorem digitChar_toNat (d : Nat) (h : d < 10) : (Char.ofNat (48 + d)).toNat = 48 + d := by
  interval_cases d <;> rfl


theorem digitChar_isDigit (d : Nat) (h : d < 10) : (Char.ofNat (48 + d)).isDigit = true := by
  interval_cases d <;> rfl


theorem digitVal_digitChar (d : Nat) (h : d < 10) : digitVal (Char.ofNat (48 + d)) = d := by
  unfold digitVal
  rw [digitChar_toNat d h]
  omega


theorem natDigitsAux_all_digits :
    ∀ (f n : Nat), ∀ c ∈ natDigitsAux f n, c.isDigit = true := by
  intro f
  induction f with
  | zero => intro n c hc; simp [natDigitsAux] at hc
  | succ f ih =>
    intro n c hc
    rw [natDigitsAux] at hc
    by_cases hn : n = 0
    · rw [if_pos hn] at hc; simp at hc
    · rw [if_neg hn] at hc
      rcases List.mem_cons.mp hc with h | h
      · rw [h]; exact digitChar_isDigit _ (Nat.mod_lt n (by norm_num))
      · exact ih _ c h


theorem natDigitsAux_val :
    ∀ (f n acc : Nat), n ≤ f →
      List.foldl (fun a c => 10 * a + digitVal c) acc (natDigitsAux f n).reverse
        = acc * 10 ^ (natDigitsAux f n).length + n := by
  intro f
  induction f with
  | zero =>
    intro n acc h
    have : n = 0 := by omega
    subst this
    simp [natDigitsAux]
  | succ f ih =>
    intro n acc h
    rw [natDigitsAux]
    by_cases hn : n = 0
    · rw [if_pos hn]; simp [hn]
    · rw [if_neg hn]
      have hrec := ih (n / 10) (acc) (by omega)
      rw [List.reverse_cons, List.foldl_append]
      rw [hrec]
      simp only [List.foldl_cons, List.foldl_nil, List.length_cons]
      rw [digitVal_digitChar _ (Nat.mod_lt n (by norm_num))]
      rw [pow_succ]
      have : 10 * (n / 10) + n % 10 = n := by omega
      ring_nf
      omega


theorem digitsVal_natToChars (n : Nat) : digitsVal (natToChars n) = n := by
  unfold natToChars digitsVal
  by_cases hn : n = 0
  · rw [if_pos hn, hn]; rfl
  · rw [if_neg hn]
    have := natDigitsAux_val n n 0 le_rfl
    simpa using this


theorem natToChars_ne_nil (n : Nat) : natToChars n ≠ [] := by
  unfold natToChars
  by_cases hn : n = 0
  · rw [if_pos hn]; simp
  · rw [if_neg hn]
    obtain ⟨m, hm⟩ := Nat.exists_eq_succ_of_ne_zero hn
    rw [hm]
    rw [natDigitsAux, if_neg (by omega)]
    simp


theorem natToChars_all_digits (n : Nat) : ∀ c ∈ natToChars n, c.isDigit = true := by
  unfold natToChars
  by_cases hn : n = 0
  · rw [if_pos hn]; intro c hc; simp at hc; rw [hc]; rfl
  · rw [if_neg hn]
    intro c hc
    exact natDigitsAux_all_digits n n c (List.mem_reverse.mp hc)


theorem natDigitsAux_length_le :
    ∀ (f n k : Nat), n ≤ f → n < 10 ^ k → (natDigitsAux f n).length ≤ k := by
  intro f
  induction f with
  | zero => intro n k h1 h2; simp [natDigitsAux]
  | succ f ih =>
    intro n k h1 h2
    rw [natDigitsAux]
    by_cases hn : n = 0
    · rw [if_pos hn]; simp
    · rw [if_neg hn]
      cases k with
      | zero => simp at h2; omega
      | succ k =>
        simp only [List.length_cons, Nat.succ_le_succ_iff]
        refine ih (n / 10) k (by omega) ?_
        rw [pow_succ] at h2
        omega


theorem natToCharsPad_all_digits (k n : Nat) : ∀ c ∈ natToCharsPad k n, c.isDigit = true := by
  unfold natToCharsPad
  intro c hc
  rcases List.mem_append.mp hc with h | h
  · rw [List.eq_of_mem_replicate h]; rfl
  · exact natDigitsAux_all_digits n n c (List.mem_reverse.mp h)


theorem natToCharsPad_length (k n : Nat) (h : n < 10 ^ k) :
    (natToCharsPad k n).length = k := by
  unfold natToCharsPad
  have := natDigitsAux_length_le n n k le_rfl h
  simp only [List.length_append, List.length_replicate, List.length_reverse]
  omega


theorem natToCharsPad_ne_nil (k n : Nat) (hk : k ≠ 0) (h : n < 10 ^ k) :
    natToCharsPad k n ≠ [] := by
  intro hnil
  have := natToCharsPad_length k n h
  rw [hnil] at this
  simp at this
  omega


theorem digitsVal_zero_pad :
    ∀ (m : Nat) (rest : Str),
      List.foldl (fun a c => 10 * a + digitVal c) 0 (List.replicate m '0' ++ rest)
        = List.foldl (fun a c => 10 * a + digitVal c) 0 rest := by
  intro m
  induction m with
  | zero => intro rest; rfl
  | succ m ih =>
    intro rest
    rw [List.replicate_succ, List.cons_append, List.foldl_cons]
    have : 10 * 0 + digitVal '0' = 0 := rfl
    rw [this]
    exact ih rest


theorem digitsVal_natToCharsPad (k n : Nat) : digitsVal (natToCharsPad k n) = n := by
  unfold natToCharsPad digitsVal
  rw [digitsVal_zero_pad]
  have := natDigitsAux_val n n 0 le_rfl
  simpa using this


theorem takeWhile_append_of (p : Char → Bool) :
    ∀ (ds rest : Str), (∀ c ∈ ds, p c = true) →
      (∀ c cs, rest = c :: cs → p c = false) →
      (ds ++ rest).takeWhile p = ds ∧ (ds ++ rest).dropWhile p = rest := by
  intro ds
  induction ds with
  | nil =>
    intro rest h1 h2
    cases rest with
    | nil => exact ⟨rfl, rfl⟩
    | cons c cs =>
      simp only [List.nil_append, List.takeWhile_cons, List.dropWhile_cons, h2 c cs rfl]
      exact ⟨rfl, rfl⟩
  | cons d ds ih =>
    intro rest h1 h2
    have hd : p d = true := h1 d (List.mem_cons_self d ds)
    obtain ⟨ht, hdr⟩ := ih rest (fun c hc => h1 c (List.mem_cons_of_mem d hc)) h2
    simp only [List.cons_append, List.takeWhile_cons, List.dropWhile_cons, hd, ht, hdr]
    exact ⟨rfl, rfl⟩



theorem delimOk_head (rest : Str) (h : delimOk rest) :
    ∀ c cs, rest = c :: cs →
      c.isDigit = false ∧ c ≠ '.' ∧ c ≠ 'e' ∧ c ≠ 'E' ∧ c ≠ '"' := by
  intro c cs hc
  subst hc
  have h4 : c = ',' ∨ c = '}' ∨ c = ']' ∨ (c = ' ' ∨ c = '\t' ∨ c = '\n' ∨ c = '\r') := by
    rcases h with h | h | h | h
    · exact Or.inl h
    · exact Or.inr (Or.inl h)
    · exact Or.inr (Or.inr (Or.inl h))
    · refine Or.inr (Or.inr (Or.inr ?_))
      have := h
      simp only [isJWsB, Bool.or_eq_true, decide_eq_true_eq] at this
      tauto
  rcases h4 with h | h | h | h | h | h | h <;> subst h <;>
    exact ⟨rfl, by decide, by decide, by decide, by decide⟩


/-- Skipping the exponent branch when the next character is a delimiter. -/
theorem parseExpOpt_delim (v : ℚ) (rest : Str)
    (h : ∀ c cs, rest = c :: cs → c ≠ 'e' ∧ c ≠ 'E') :
    parseExpOpt v rest = some (v, rest) := by
  cases rest with
  | nil => rfl
  | cons c cs =>
    obtain ⟨h1, h2⟩ := h c cs rfl
    unfold parseExpOpt
    dsimp only
    rw [if_neg]
    rintro (hh | hh)
    · exact h1 hh
    · exact h2 hh


/-- Exact decimal representation: the numerator of the scaled value. -/
theorem decRep_cast (q : ℚ) (h0 : 0 ≤ q) (hq : decRep q) :
    ((q.num.toNat * (10 ^ decScale q / q.den) : ℕ) : ℚ) = q * 10 ^ decScale q := by
  obtain ⟨t, ht⟩ := hq
  have hden0 : 0 < q.den := q.pos
  have hdiv : 10 ^ decScale q / q.den = t := by
    rw [ht]
    exact Nat.mul_div_cancel_left t hden0
  have hnum : ((q.num.toNat : ℕ) : ℚ) = (q.num : ℚ) := by
    have h1 : (q.num.toNat : ℤ) = q.num := Int.toNat_of_nonneg (Rat.num_nonneg.mpr h0)
    exact_mod_cast h1
  rw [hdiv]
  push_cast
  rw [show ((q.num.toNat : ℕ) : ℚ) = (q.num : ℚ) from hnum]
  have hq10 : (10 : ℚ) ^ decScale q = (q.den : ℚ) * t := by
    exact_mod_cast ht
  rw [hq10]
  have hdQ : ((q.den : ℚ)) ≠ 0 := by
    exact_mod_cast q.den_ne_zero
  have hmul : q * (q.den : ℚ) = (q.num : ℚ) := by
    have h := Rat.num_div_den q
    rw [div_eq_iff hdQ] at h
    exact h.symm
  calc (q.num : ℚ) * (t : ℚ) = q * (q.den : ℚ) * t := by rw [hmul]
    _ = q * ((q.den : ℚ) * t) := by ring


/-- A decimal digit is none of the JSON dispatch characters. -/
theorem isDigit_facts (c : Char) (h : c.isDigit = true) :
    c ≠ '-' ∧ c ≠ 'n' ∧ c ≠ 't' ∧ c ≠ 'f' ∧ c ≠ '"' ∧ c ≠ '[' ∧ c ≠ '{'
      ∧ isJWsB c = false := by
  simp only [Char.isDigit, Bool.and_eq_true, decide_eq_true_eq] at h
  obtain ⟨h1, h2⟩ := h
  have h1n : 48 ≤ c.toNat := h1
  have h2n : c.toNat ≤ 57 := h2
  have hne : ∀ d : Char, d.toNat < 48 ∨ 57 < d.toNat → c ≠ d := by
    intro d hd he
    rw [he] at h1n h2n
    rcases hd with hd | hd <;> omega
  refine ⟨hne '-' (by decide), hne 'n' (by decide), hne 't' (by decide),
    hne 'f' (by decide), hne '"' (by decide), hne '[' (by decide),
    hne '{' (by decide), ?_⟩
  have hde : ∀ d : Char, c ≠ d → (c = d : Bool) = false := by
    intro d hd
    simpa using hd
  simp only [isJWsB, hde ' ' (hne ' ' (by decide)), hde '\t' (hne '\t' (by decide)),
    hde '\n' (hne '\n' (by decide)), hde '\r' (hne '\r' (by decide)), Bool.or_self,
    Bool.or_false]


/-- The serialized magnitude starts with a decimal digit. -/
theorem natToChars_head (n : Nat) :
    ∃ c cs, natToChars n = c :: cs ∧ c.isDigit = true := by
  cases h : natToChars n with
  | nil => exact absurd h (natToChars_ne_nil n)
  | cons c cs =>
    refine ⟨c, cs, rfl, natToChars_all_digits n c ?_⟩
    rw [h]
    exact List.mem_cons_self c cs


theorem encNumNN_head (q : ℚ) :
    ∃ c cs, encNumNN q = c :: cs ∧ c.isDigit = true := by
  unfold encNumNN
  by_cases hk : decScale q = 0
  · rw [if_pos hk]
    exact natToChars_head _
  · rw [if_neg hk]
    obtain ⟨c, cs, hc, hd⟩ := natToChars_head (q.num.toNat * (10 ^ decScale q / q.den)
      / 10 ^ decScale q)
    exact ⟨c, cs ++ '.' :: natToCharsPad (decScale q)
      (q.num.toNat * (10 ^ decScale q / q.den) % 10 ^ decScale q), by rw [hc]; rfl, hd⟩


/-- `parseFrac` passes a delimited tail through unchanged. -/
theorem parseFrac_delim (ip : ℚ) (rest : Str)
    (h : ∀ c cs, rest = c :: cs → c ≠ '.' ∧ c ≠ 'e' ∧ c ≠ 'E') :
    parseFrac ip rest = some (ip, rest) := by
  cases rest with
  | nil => rfl
  | cons c cs =>
    obtain ⟨h1, h2, h3⟩ := h c cs rfl
    unfold parseFrac
    dsimp only
    rw [if_neg h1]
    exact parseExpOpt_delim ip (c :: cs) (fun d ds hds => by
      cases hds
      exact ⟨h2, h3⟩)


/-- Round trip for the magnitude of a decimal-representable rational. -/
theorem parseNumMag_enc (q : ℚ) (h0 : 0 ≤ q) (hq : decRep q) (rest : Str)
    (hrest : ∀ c cs, rest = c :: cs →
      c.isDigit = false ∧ c ≠ '.' ∧ c ≠ 'e' ∧ c ≠ 'E') :
    parseNumMag (encNumNN q ++ rest) = some (q, rest) := by
  have hm := decRep_cast q h0 hq
  by_cases hk : decScale q = 0
  · have henc : encNumNN q = natToChars (q.num.toNat * (10 ^ decScale q / q.den)) := by
      unfold encNumNN
      rw [if_pos hk]
    rw [henc]
    obtain ⟨htw, hdw⟩ := takeWhile_append_of Char.isDigit _ rest
      (natToChars_all_digits _) (fun c cs hc => (hrest c cs hc).1)
    unfold parseNumMag
    rw [htw, hdw, if_neg (natToChars_ne_nil _), digitsVal_natToChars]
    rw [parseFrac_delim _ rest (fun c cs hc =>
      ⟨(hrest c cs hc).2.1, (hrest c cs hc).2.2.1, (hrest c cs hc).2.2.2⟩)]
    rw [hm, hk]
    norm_num
  · have henc : encNumNN q ++ rest
        = natToChars (q.num.toNat * (10 ^ decScale q / q.den) / 10 ^ decScale q)
          ++ ('.' :: (natToCharsPad (decScale q)
            (q.num.toNat * (10 ^ decScale q / q.den) % 10 ^ decScale q) ++ rest)) := by
      unfold encNumNN
      rw [if_neg hk]
      simp [List.append_assoc]
    rw [henc]
    obtain ⟨htw, hdw⟩ := takeWhile_append_of Char.isDigit _
      ('.' :: (natToCharsPad (decScale q)
        (q.num.toNat * (10 ^ decScale q / q.den) % 10 ^ decScale q) ++ rest))
      (natToChars_all_digits _) (fun c cs hc => by cases hc; rfl)
    unfold parseNumMag
    rw [htw, hdw, if_neg (natToChars_ne_nil _), digitsVal_natToChars]
    unfold parseFrac
    dsimp only
    rw [if_pos rfl]
    have hmod : q.num.toNat * (10 ^ decScale q / q.den) % 10 ^ decScale q
        < 10 ^ decScale q := Nat.mod_lt _ (by positivity)
    obtain ⟨htw2, hdw2⟩ := takeWhile_append_of Char.isDigit
      (natToCharsPad (decScale q)
        (q.num.toNat * (10 ^ decScale q / q.den) % 10 ^ decScale q)) rest
      (natToCharsPad_all_digits _ _) (fun c cs hc => (hrest c cs hc).1)
    rw [htw2, hdw2, if_neg (natToCharsPad_ne_nil _ _ hk hmod), digitsVal_natToCharsPad,
      natToCharsPad_length _ _ hmod]
    rw [parseExpOpt_delim _ rest (fun c cs hc =>
      ⟨(hrest c cs hc).2.2.1, (hrest c cs hc).2.2.2⟩)]
    have harith : ((q.num.toNat * (10 ^ decScale q / q.den) / 10 ^ decScale q : ℕ) : ℚ)
        + ((q.num.toNat * (10 ^ decScale q / q.den) % 10 ^ decScale q : ℕ) : ℚ)
          / 10 ^ decScale q = q := by
      have hsplit : ((q.num.toNat * (10 ^ decScale q / q.den) : ℕ) : ℚ)
          = ((q.num.toNat * (10 ^ decScale q / q.den) / 10 ^ decScale q : ℕ) : ℚ)
              * 10 ^ decScale q
            + ((q.num.toNat * (10 ^ decScale q / q.den) % 10 ^ decScale q : ℕ) : ℚ) := by
        exact_mod_cast (Nat.div_add_mod' (q.num.toNat * (10 ^ decScale q / q.den))
          (10 ^ decScale q)).symm
      have hp : ((10 : ℚ)) ^ decScale q ≠ 0 := by positivity
      rw [hsplit] at hm
      field_simp
      linarith [hm]
    rw [harith]


/-- Round trip for any serialized decimal-representable rational. -/
theorem parseNumber_enc (q : ℚ) (hq : decRep q) (rest : Str)
    (hrest : ∀ c cs, rest = c :: cs →
      c.isDigit = false ∧ c ≠ '.' ∧ c ≠ 'e' ∧ c ≠ 'E') :
    parseNumber (encNum q ++ rest) = some (q, rest) := by
  by_cases hneg : q < 0
  · have henc : encNum q ++ rest = '-' :: (encNumNN (-q) ++ rest) := by
      unfold encNum
      rw [if_pos hneg]
      rfl
    rw [henc]
    unfold parseNumber
    dsimp only
    rw [if_pos rfl]
    have hq' : decRep (-q) := by
      unfold decRep decScale at hq ⊢
      rwa [Rat.den_neg_eq_den]
    rw [parseNumMag_enc (-q) (by linarith) hq' rest hrest]
    simp

  · have henc : encNum q = encNumNN q := by
      unfold encNum
      rw [if_neg hneg]
    obtain ⟨c, cs, hc, hd⟩ := encNumNN_head q
    have hsplit : encNum q ++ rest = c :: (cs ++ rest) := by
      rw [henc, hc]
      rfl
    rw [hsplit]
    unfold parseNumber
    dsimp only
    rw [if_neg (isDigit_facts c hd).1]
    have : c :: (cs ++ rest) = encNumNN q ++ rest := by
      rw [hc]
      rfl
    rw [this]
    exact parseNumMag_enc q (by linarith) hq rest hrest


theorem hexDig_hexVal (k : Nat) (h : k < 16) : hexVal (hexDig k) = some k := by
  interval_cases k <;> rfl


theorem parseHex4_hex4 (n : Nat) (h : n < 65536) (rest : Str) :
    parseHex4 (hex4 n ++ rest) = some (n, rest) := by
  show parseHex4 (hexDig (n / 4096 % 16) :: hexDig (n / 256 % 16) :: hexDig (n / 16 % 16)
    :: hexDig (n % 16) :: rest) = some (n, rest)
  unfold parseHex4
  dsimp only
  rw [hexDig_hexVal _ (by omega), hexDig_hexVal _ (by omega), hexDig_hexVal _ (by omega),
    hexDig_hexVal _ (by omega)]
  dsimp only
  have : ((n / 4096 % 16 * 16 + n / 256 % 16) * 16 + n / 16 % 16) * 16 + n % 16 = n := by
    omega
  rw [this]


/-- Every Unicode scalar value is below the surrogate range or above it. -/
theorem char_range (c : Char) :
    c.toNat < 55296 ∨ (57343 < c.toNat ∧ c.toNat < 1114112) := by
  rcases c.valid with h | ⟨h1, h2⟩
  · exact Or.inl h
  · exact Or.inr ⟨h1, h2⟩


set_option maxHeartbeats 1000000 in
theorem escChar_length_pos (c : Char) : 0 < (escChar c).length := by
  unfold escChar
  split_ifs <;> simp


theorem escape_length_ge : ∀ s : Str, s.length ≤ (escape s).length := by
  intro s
  induction s with
  | nil => simp [escape]
  | cons c cs ih =>
    rw [escape, List.length_append, List.length_cons]
    have := escChar_length_pos c
    omega


theorem psb_quote (f : Nat) (rest : Str) :
    parseStringBody (f + 1) ('"' :: rest) = some ([], rest) := rfl


theorem psb_lit (f : Nat) (c : Char) (rest : Str) (h1 : ¬ c = '"') (h2 : ¬ c = '\\') :
    parseStringBody (f + 1) (c :: rest)
      = (parseStringBody f rest).map (fun p => (c :: p.1, p.2)) := by
  conv_lhs => rw [parseStringBody.eq_def]
  dsimp only
  rw [if_neg h1, if_neg h2]


theorem psb_esc_u (f : Nat) (r : Str) :
    parseStringBody (f + 1) ('\\' :: 'u' :: r)
      = match parseHex4 r with
        | none => none
        | some (n, r2) =>
          if 55296 ≤ n ∧ n < 56320 then
            match r2 with
            | [] => none
            | c1 :: r2a =>
              if c1 = '\\' then
                match r2a with
                | [] => none
                | c2 :: r3 =>
                  if c2 = 'u' then
                    match parseHex4 r3 with
                    | none => none
                    | some (n2, r4) =>
                      if 56320 ≤ n2 ∧ n2 < 57344 then
                        (parseStringBody f r4).map
                          (fun p => (Char.ofNat (65536 + (n - 55296) * 1024
                            + (n2 - 56320)) :: p.1, p.2))
                      else none
                  else none
              else none
          else if 56320 ≤ n ∧ n < 57344 then none
          else (parseStringBody f r2).map (fun p => (Char.ofNat n :: p.1, p.2)) := rfl


/-- Round trip for the body of a serialized string: parsing the escaped
text against the closing quote returns the original characters. -/
theorem parseStringBody_escape :
    ∀ (s : Str) (fuel : Nat) (rest : Str), s.length < fuel →
      parseStringBody fuel (escape s ++ '"' :: rest) = some (s, rest) := by
  intro s
  induction s with
  | nil =>
    intro fuel rest hf
    cases fuel with
    | zero => omega
    | succ f => exact psb_quote f rest
  | cons c cs ih =>
    intro fuel rest hf
    cases fuel with
    | zero => omega
    | succ f =>
      have hf' : cs.length < f := by
        simp only [List.length_cons] at hf
        omega
      have hih := ih f rest hf'
      rw [escape, List.append_assoc]
      by_cases h1 : c = '"'
      · subst h1
        show parseStringBody (f + 1) ('\\' :: '"' :: (escape cs ++ '"' :: rest)) = _
        rw [show parseStringBody (f + 1) ('\\' :: '"' :: (escape cs ++ '"' :: rest))
          = (parseStringBody f (escape cs ++ '"' :: rest)).map
              (fun p => ('"' :: p.1, p.2)) from rfl, hih]
        rfl
      · by_cases h2 : c = '\\'
        · subst h2
          show parseStringBody (f + 1) ('\\' :: '\\' :: (escape cs ++ '"' :: rest)) = _
          rw [show parseStringBody (f + 1) ('\\' :: '\\' :: (escape cs ++ '"' :: rest))
            = (parseStringBody f (escape cs ++ '"' :: rest)).map
                (fun p => ('\\' :: p.1, p.2)) from rfl, hih]
          rfl
        · by_cases h3 : c = '\n'
          · subst h3
            show parseStringBody (f + 1) ('\\' :: 'n' :: (escape cs ++ '"' :: rest)) = _
            rw [show parseStringBody (f + 1) ('\\' :: 'n' :: (escape cs ++ '"' :: rest))
              = (parseStringBody f (escape cs ++ '"' :: rest)).map
                  (fun p => ('\n' :: p.1, p.2)) from rfl, hih]
            rfl
          · by_cases h4 : c = '\t'
            · subst h4
              show parseStringBody (f + 1) ('\\' :: 't' :: (escape cs ++ '"' :: rest)) = _
              rw [show parseStringBody (f + 1) ('\\' :: 't' :: (escape cs ++ '"' :: rest))
                = (parseStringBody f (escape cs ++ '"' :: rest)).map
                    (fun p => ('\t' :: p.1, p.2)) from rfl, hih]
              rfl
            · by_cases h5 : c = '\r'
              · subst h5
                show parseStringBody (f + 1)
                  ('\\' :: 'r' :: (escape cs ++ '"' :: rest)) = _
                rw [show parseStringBody (f + 1)
                  ('\\' :: 'r' :: (escape cs ++ '"' :: rest))
                  = (parseStringBody f (escape cs ++ '"' :: rest)).map
                      (fun p => ('\r' :: p.1, p.2)) from rfl, hih]
                rfl
              · by_cases h6 : c.toNat = 8
                · have hc : c = Char.ofNat 8 := by
                    rw [← h6, Char.ofNat_toNat]
                  rw [show escChar c = ['\\', 'b'] from by
                    unfold escChar
                    rw [if_neg h1, if_neg h2, if_neg h3, if_neg h4, if_neg h5, if_pos h6]]
                  show parseStringBody (f + 1)
                    ('\\' :: 'b' :: (escape cs ++ '"' :: rest)) = _
                  rw [show parseStringBody (f + 1)
                    ('\\' :: 'b' :: (escape cs ++ '"' :: rest))
                    = (parseStringBody f (escape cs ++ '"' :: rest)).map
                        (fun p => (Char.ofNat 8 :: p.1, p.2)) from rfl, hih]
                  rw [← hc]
                  rfl
                · by_cases h7 : c.toNat = 12
                  · have hc : c = Char.ofNat 12 := by
                      rw [← h7, Char.ofNat_toNat]
                    rw [show escChar c = ['\\', 'f'] from by
                      unfold escChar
                      rw [if_neg h1, if_neg h2, if_neg h3, if_neg h4, if_neg h5,
                        if_neg h6, if_pos h7]]
                    show parseStringBody (f + 1)
                      ('\\' :: 'f' :: (escape cs ++ '"' :: rest)) = _
                    rw [show parseStringBody (f + 1)
                      ('\\' :: 'f' :: (escape cs ++ '"' :: rest))
                      = (parseStringBody f (escape cs ++ '"' :: rest)).map
                          (fun p => (Char.ofNat 12 :: p.1, p.2)) from rfl, hih]
                    rw [← hc]
                    rfl
                  · by_cases h8 : c.toNat < 32
                    · rw [show escChar c = '\\' :: 'u' :: hex4 c.toNat from by
                        unfold escChar
                        rw [if_neg h1, if_neg h2, if_neg h3, if_neg h4, if_neg h5,
                          if_neg h6, if_neg h7, if_pos h8]]
                      rw [show ('\\' :: 'u' :: hex4 c.toNat) ++ (escape cs ++ '"' :: rest)
                        = '\\' :: 'u' :: (hex4 c.toNat ++ (escape cs ++ '"' :: rest))
                        from rfl]
                      rw [psb_esc_u, parseHex4_hex4 c.toNat (by omega)]
                      dsimp only
                      rw [if_neg (by omega), if_neg (by omega), hih, Char.ofNat_toNat]
                      rfl
                    · by_cases h9 : c.toNat < 127
                      · rw [show escChar c = [c] from by
                          unfold escChar
                          rw [if_neg h1, if_neg h2, if_neg h3, if_neg h4, if_neg h5,
                            if_neg h6, if_neg h7, if_neg h8, if_pos h9]]
                        rw [show [c] ++ (escape cs ++ '"' :: rest)
                          = c :: (escape cs ++ '"' :: rest) from rfl]
                        rw [psb_lit f c _ h1 h2, hih]
                        rfl
                      · by_cases h10 : c.toNat < 65536
                        · have hr := char_range c
                          rw [show escChar c = '\\' :: 'u' :: hex4 c.toNat from by
                            unfold escChar
                            rw [if_neg h1, if_neg h2, if_neg h3, if_neg h4, if_neg h5,
                              if_neg h6, if_neg h7, if_neg h8, if_neg h9, if_pos h10]]
                          rw [show ('\\' :: 'u' :: hex4 c.toNat)
                              ++ (escape cs ++ '"' :: rest)
                            = '\\' :: 'u' :: (hex4 c.toNat ++ (escape cs ++ '"' :: rest))
                            from rfl]
                          rw [psb_esc_u, parseHex4_hex4 c.toNat (by omega)]
                          dsimp only
                          rw [if_neg (by omega), if_neg (by omega), hih, Char.ofNat_toNat]
                          rfl
                        · have hr := char_range c
                          have hbig : 65536 ≤ c.toNat ∧ c.toNat < 1114112 := by
                            rcases hr with hr | hr
                            · omega
                            · exact ⟨by omega, hr.2⟩
                          rw [show escChar c
                            = '\\' :: 'u' :: hex4 (55296 + (c.toNat - 65536) / 1024)
                              ++ '\\' :: 'u' :: hex4 (56320 + (c.toNat - 65536) % 1024)
                            from by
                            unfold escChar
                            rw [if_neg h1, if_neg h2, if_neg h3, if_neg h4, if_neg h5,
                              if_neg h6, if_neg h7, if_neg h8, if_neg h9, if_neg h10]]
                          rw [show ('\\' :: 'u' :: hex4 (55296 + (c.toNat - 65536) / 1024)
                              ++ '\\' :: 'u' :: hex4 (56320 + (c.toNat - 65536) % 1024))
                              ++ (escape cs ++ '"' :: rest)
                            = '\\' :: 'u' :: (hex4 (55296 + (c.toNat - 65536) / 1024)
                              ++ ('\\' :: 'u' :: (hex4 (56320 + (c.toNat - 65536) % 1024)
                                ++ (escape cs ++ '"' :: rest)))) from by
                            simp [List.append_assoc]]
                          rw [psb_esc_u, parseHex4_hex4 _ (by omega)]
                          try dsimp only
                          rw [if_pos (by constructor <;> omega)]
                          try dsimp only
                          rw [if_pos rfl]
                          try dsimp only
                          rw [if_pos rfl]
                          rw [parseHex4_hex4 _ (by omega)]
                          try dsimp only
                          rw [if_pos (by constructor <;> omega), hih]
                          have harith : 65536 + (55296 + (c.toNat - 65536) / 1024 - 55296)
                              * 1024 + (56320 + (c.toNat - 65536) % 1024 - 56320)
                              = c.toNat := by
                            omega
                          rw [harith, Char.ofNat_toNat]
                          rfl


theorem vokge_mono (M N : Nat) (v : Json) (h : N ≤ M) (hv : VOKge N v) : VOKge M v :=
  fun fuel hf => hv fuel (le_trans h hf)


theorem skipWs_cons_not (c : Char) (t : Str) (h : isJWsB c = false) :
    skipWs (c :: t) = c :: t := by
  simp [skipWs, List.dropWhile_cons, h]


theorem skipWs_cons_ws (c : Char) (t : Str) (h : isJWsB c = true) :
    skipWs (c :: t) = skipWs t := by
  simp [skipWs, List.dropWhile_cons, h]


theorem pv_null (f : Nat) (r : Str) :
    parseValue (f + 1) ('n' :: 'u' :: 'l' :: 'l' :: r) = some (.null, r) := rfl


theorem pv_true (f : Nat) (r : Str) :
    parseValue (f + 1) ('t' :: 'r' :: 'u' :: 'e' :: r) = some (.bool true, r) := rfl


theorem pv_false (f : Nat) (r : Str) :
    parseValue (f + 1) ('f' :: 'a' :: 'l' :: 's' :: 'e' :: r) = some (.bool false, r) := rfl


theorem pv_string (f : Nat) (body : Str) :
    parseValue (f + 1) ('"' :: body)
      = (parseStringBody (body.length + 1) body).map (fun p => (Json.str p.1, p.2)) := rfl


theorem pv_obj (f : Nat) (body : Str) :
    parseValue (f + 1) ('{' :: body)
      = match skipWs body with
        | [] => (parseMembers f []).map (fun p => (Json.obj p.1, p.2))
        | c2 :: r =>
          if c2 = '}' then some (.obj .nil, r)
          else (parseMembers f (c2 :: r)).map (fun p => (Json.obj p.1, p.2)) := rfl


theorem pv_num (f : Nat) (c : Char) (rest : Str) (hws : isJWsB c = false)
    (hn : ¬ c = 'n') (ht : ¬ c = 't') (hf : ¬ c = 'f') (hq : ¬ c = '"')
    (hlb : ¬ c = '[') (hob : ¬ c = '{') :
    parseValue (f + 1) (c :: rest)
      = (parseNumber (c :: rest)).map (fun p => (Json.num p.1, p.2)) := by
  simp only [parseValue]
  rw [skipWs_cons_not c rest hws]
  dsimp only
  rw [if_neg hn, if_neg ht, if_neg hf, if_neg hq, if_neg hlb, if_neg hob]


theorem pv_skip_ws (f : Nat) (c : Char) (x : Str) (h : isJWsB c = true) :
    parseValue (f + 1) (c :: x) = parseValue (f + 1) x := by
  simp only [parseValue]
  rw [skipWs_cons_ws c x h]


/-- The head of a serialized number. -/
theorem encNum_head (q : ℚ) :
    ∃ c cs, encNum q = c :: cs ∧ (c = '-' ∨ c.isDigit = true) := by
  unfold encNum
  by_cases hneg : q < 0
  · rw [if_pos hneg]
    exact ⟨'-', encNumNN (-q), rfl, Or.inl rfl⟩
  · rw [if_neg hneg]
    obtain ⟨c, cs, hc, hd⟩ := encNumNN_head q
    exact ⟨c, cs, hc, Or.inr hd⟩


/-- Scalar values round trip at any positive fuel. -/
theorem parseValue_scalar (v : Json) (hv : SVal v) : VOKge 1 v := by
  intro fuel hfuel rest hrest
  obtain ⟨f, rfl⟩ : ∃ f, fuel = f + 1 := ⟨fuel - 1, by omega⟩
  cases v with
  | null =>
    rw [show dumps Json.null ++ rest = 'n' :: 'u' :: 'l' :: 'l' :: rest from by
      rw [dumps]
      rfl]
    exact pv_null f rest
  | bool b =>
    cases b with
    | true =>
      rw [show dumps (Json.bool true) ++ rest = 't' :: 'r' :: 'u' :: 'e' :: rest from by
        rw [dumps]
        rfl]
      exact pv_true f rest
    | false =>
      rw [show dumps (Json.bool false) ++ rest
          = 'f' :: 'a' :: 'l' :: 's' :: 'e' :: rest from by
        rw [dumps]
        rfl]
      exact pv_false f rest
  | str s =>
    have htext : dumps (.str s) ++ rest = '"' :: (escape s ++ '"' :: rest) := by
      rw [dumps]
      simp [encStr, List.append_assoc]
    rw [htext, pv_string]
    rw [parseStringBody_escape s _ rest (by
      have := escape_length_ge s
      simp only [List.length_append, List.length_cons]
      omega)]
    rfl
  | num q =>
    obtain ⟨c, cs, hc, hcl⟩ := encNum_head q
    have hfacts : isJWsB c = false ∧ ¬ c = 'n' ∧ ¬ c = 't' ∧ ¬ c = 'f'
        ∧ ¬ c = '"' ∧ ¬ c = '[' ∧ ¬ c = '{' := by
      rcases hcl with hcl | hcl
      · subst hcl
        refine ⟨by decide, by decide, by decide, by decide, by decide, by decide, by decide⟩
      · obtain ⟨a1, a2, a3, a4, a5, a6, a7, a8⟩ := isDigit_facts c hcl
        exact ⟨a8, a2, a3, a4, a5, a6, a7⟩
    have htext : dumps (.num q) ++ rest = c :: (cs ++ rest) := by
      rw [dumps, hc]
      rfl
    rw [htext, pv_num f c _ hfacts.1 hfacts.2.1 hfacts.2.2.1 hfacts.2.2.2.1
      hfacts.2.2.2.2.1 hfacts.2.2.2.2.2.1 hfacts.2.2.2.2.2.2]
    rw [show c :: (cs ++ rest) = (c :: cs) ++ rest from rfl, ← hc]
    rw [parseNumber_enc q hv rest (fun d ds hds => by
      obtain ⟨b1, b2, b3, b4, b5⟩ := delimOk_head rest hrest d ds hds
      exact ⟨b1, b2, b3, b4⟩)]
    rfl
  | arr a => exact absurd hv (by simp [SVal])
  | obj o => exact absurd hv (by simp [SVal])


theorem dumpsMembers_shape (k : Str) (v : Json) (tl : JsonObj) :
    ∃ Y, dumpsMembers k v tl = '"' :: Y := by
  cases tl with
  | nil =>
    refine ⟨escape k ++ ('"' :: ':' :: ' ' :: dumps v), ?_⟩
    rw [dumpsMembers]
    simp [encStr, List.append_assoc]
  | cons k2 v2 t2 =>
    refine ⟨escape k ++ ('"' :: ':' :: ' ' :: (dumps v
      ++ ',' :: ' ' :: dumpsMembers k2 v2 t2)), ?_⟩
    rw [dumpsMembers]
    simp [encStr, List.append_assoc]


/-- Round trip for a non-empty serialized member list against the closing
brace. -/
theorem parseMembers_enc :
    (tl : JsonObj) → (k : Str) → (v : Json) → (N fuel : Nat) → (rest : Str) →
      1 ≤ N → VOKge N v → MembersVOK N tl → objLen tl + N + 1 ≤ fuel →
      parseMembers fuel (dumpsMembers k v tl ++ '}' :: rest)
        = some (.cons k v tl, rest)
  | .nil, k, v, N, fuel, rest, hN, hv, htl, hfuel => by
    obtain ⟨f, rfl⟩ : ∃ f, fuel = f + 1 := ⟨fuel - 1, by omega⟩
    obtain ⟨g, hg⟩ : ∃ g, f = g + 1 := ⟨f - 1, by omega⟩
    have htext : dumpsMembers k v .nil ++ '}' :: rest
        = '"' :: (escape k ++ '"' :: (':' :: ' ' :: (dumps v ++ '}' :: rest))) := by
      rw [dumpsMembers]
      simp [encStr, List.append_assoc]
    rw [htext]
    simp only [parseMembers]
    try dsimp only
    simp only [reduceIte]
    rw [parseStringBody_escape k _ _ (by
      have := escape_length_ge k
      simp only [List.length_append, List.length_cons]
      omega)]
    try dsimp only
    rw [skipWs_cons_not ':' _ (by decide)]
    try dsimp only
    simp only [reduceIte]
    rw [hg, pv_skip_ws g ' ' _ (by decide)]
    rw [← hg]
    rw [hv f (by omega) ('}' :: rest) (Or.inr (Or.inl rfl))]
    try dsimp only
    rw [skipWs_cons_not '}' rest (by decide)]
    try dsimp only
    simp only [reduceIte]
    rw [if_neg (by decide)]
  | .cons k2 v2 t2, k, v, N, fuel, rest, hN, hv, htl, hfuel => by
    obtain ⟨f, rfl⟩ : ∃ f, fuel = f + 1 := ⟨fuel - 1, by omega⟩
    obtain ⟨g, hg⟩ : ∃ g, f = g + 1 := ⟨f - 1, by omega⟩
    have htext : dumpsMembers k v (.cons k2 v2 t2) ++ '}' :: rest
        = '"' :: (escape k ++ '"' :: (':' :: ' ' :: (dumps v
          ++ ',' :: ' ' :: (dumpsMembers k2 v2 t2 ++ '}' :: rest)))) := by
      rw [dumpsMembers]
      simp [encStr, List.append_assoc]
    rw [htext]
    simp only [parseMembers]
    try dsimp only
    simp only [reduceIte]
    rw [parseStringBody_escape k _ _ (by
      have := escape_length_ge k
      simp only [List.length_append, List.length_cons]
      omega)]
    try dsimp only
    rw [skipWs_cons_not ':' _ (by decide)]
    try dsimp only
    simp only [reduceIte]
    rw [hg, pv_skip_ws g ' ' _ (by decide)]
    rw [← hg]
    rw [hv f (by omega) (',' :: ' ' :: (dumpsMembers k2 v2 t2 ++ '}' :: rest))
      (Or.inl rfl)]
    try dsimp only
    rw [skipWs_cons_not ',' _ (by decide)]
    try dsimp only
    simp only [reduceIte]
    rw [skipWs_cons_ws ' ' _ (by decide)]
    obtain ⟨Y, hY⟩ := dumpsMembers_shape k2 v2 t2
    rw [show skipWs (dumpsMembers k2 v2 t2 ++ '}' :: rest)
        = dumpsMembers k2 v2 t2 ++ '}' :: rest from by
      rw [hY]
      exact skipWs_cons_not '"' _ (by decide)]
    rw [parseMembers_enc t2 k2 v2 N f rest hN htl.1 htl.2 (by
      unfold objLen at hfuel
      omega)]
    rfl


/-- A serialized object whose member values round trip at fuel `N` round
trips at fuel `objLen + N + 2`. -/
theorem parseValue_obj (ms : JsonObj) (N : Nat) (hN : 1 ≤ N) (h : MembersVOK N ms) :
    VOKge (objLen ms + N + 2) (Json.obj ms) := by
  intro fuel hfuel rest hrest
  obtain ⟨f, rfl⟩ : ∃ f, fuel = f + 1 := ⟨fuel - 1, by omega⟩
  cases ms with
  | nil =>
    rw [show dumps (Json.obj .nil) ++ rest = '{' :: '}' :: rest from by
      rw [dumps]
      rfl]
    rw [pv_obj]
    rw [skipWs_cons_not '}' rest (by decide)]
    dsimp only
    rw [if_pos rfl]
  | cons k v t =>
    have htext : dumps (Json.obj (.cons k v t)) ++ rest
        = '{' :: (dumpsMembers k v t ++ '}' :: rest) := by
      rw [dumps]
      simp [List.append_assoc]
    rw [htext, pv_obj]
    obtain ⟨Y, hY⟩ := dumpsMembers_shape k v t
    rw [show dumpsMembers k v t ++ '}' :: rest = '"' :: (Y ++ '}' :: rest) from by
      rw [hY]
      rfl]
    rw [skipWs_cons_not '"' _ (by decide)]
    dsimp only
    rw [if_neg (by decide)]
    rw [show ('"' :: (Y ++ '}' :: rest)) = dumpsMembers k v t ++ '}' :: rest from by
      rw [hY]
      rfl]
    rw [parseMembers_enc t k v N f rest hN h.1 h.2 (by
      unfold objLen at hfuel
      omega)]
    rfl


/-- The metadata mapping as an object spine. -/
theorem objLen_metaToObj : ∀ ms : List (Str × JScalar), objLen (metaToObj ms) = ms.length := by
  intro ms
  induction ms with
  | nil => rfl
  | cons kv t ih =>
    rw [show metaToObj (kv :: t) = .cons kv.1 (jscalarToJson kv.2) (metaToObj t) from by
      rw [metaToObj]]
    rw [objLen, ih, List.length_cons]


theorem jscalarToJson_sval (v : JScalar) (h : wfScalar v) : SVal (jscalarToJson v) := by
  cases v with
  | str s => trivial
  | num q => exact h
  | bool b => trivial
  | null => trivial


theorem metaToObj_vok (ms : List (Str × JScalar)) (h : ∀ kv ∈ ms, wfScalar kv.2) :
    MembersVOK 1 (metaToObj ms) := by
  induction ms with
  | nil => trivial
  | cons kv t ih =>
    rw [show metaToObj (kv :: t) = .cons kv.1 (jscalarToJson kv.2) (metaToObj t) from by
      rw [metaToObj]]
    exact ⟨parseValue_scalar _ (jscalarToJson_sval kv.2 (h kv (List.mem_cons_self kv t))),
      ih (fun x hx => h x (List.mem_cons_of_mem kv hx))⟩


/-- The serialized record of a well-formed example round trips at fuel
`metaLen + 10`. -/
theorem exampleToDict_vok (e : TrainingExample) (hwf : wfExample e) :
    VOKge (metaLen e + 10) (exampleToDict e) := by
  obtain ⟨hscore, hmeta⟩ := hwf
  have hN : (1 : Nat) ≤ metaLen e + 3 := by omega
  have hv5 : VOKge (metaLen e + 3)
      (match e.metadata with
       | none => Json.null
       | some ms => Json.obj (metaToObj ms)) := by
    cases hm : e.metadata with
    | none =>
      exact vokge_mono _ 1 _ (by omega) (parseValue_scalar Json.null trivial)
    | some ms =>
      rw [hm] at hmeta
      have := parseValue_obj (metaToObj ms) 1 le_rfl (metaToObj_vok ms hmeta)
      rw [objLen_metaToObj] at this
      refine vokge_mono _ _ _ ?_ this
      unfold metaLen
      rw [hm]
      simp
  have hs1 : VOKge (metaLen e + 3) (optStrToJson e.input_text) :=
    vokge_mono _ 1 _ hN (parseValue_scalar _ (by cases e.input_text <;> trivial))
  have hs2 : VOKge (metaLen e + 3) (optStrToJson e.output_text) :=
    vokge_mono _ 1 _ hN (parseValue_scalar _ (by cases e.output_text <;> trivial))
  have hs3 : VOKge (metaLen e + 3) (optStrToJson e.source_type) :=
    vokge_mono _ 1 _ hN (parseValue_scalar _ (by cases e.source_type <;> trivial))
  have hs4 : VOKge (metaLen e + 3) (Json.num e.quality_score) :=
    vokge_mono _ 1 _ hN (parseValue_scalar _ hscore)
  have htop := parseValue_obj
    (.cons kInputText (optStrToJson e.input_text)
      (.cons kOutputText (optStrToJson e.output_text)
      (.cons kSourceType (optStrToJson e.source_type)
      (.cons kQualityScore (.num e.quality_score)
      (.cons kMetadata
        (match e.metadata with
         | none => Json.null
         | some ms => Json.obj (metaToObj ms)) .nil)))))
    (metaLen e + 3) hN
    ⟨hs1, hs2, hs3, hs4, hv5, trivial⟩
  unfold exampleToDict
  refine vokge_mono _ _ _ ?_ htop
  simp only [objLen]
  omega


theorem dumpsMembers_len_ge :
    (tl : JsonObj) → (k : Str) → (v : Json) →
      objLen tl + 1 ≤ (dumpsMembers k v tl).length
  | .nil, k, v => by
    rw [dumpsMembers]
    simp only [encStr, List.length_append, List.length_cons, objLen]
    omega
  | .cons k2 v2 t2, k, v => by
    rw [dumpsMembers]
    have := dumpsMembers_len_ge t2 k2 v2
    simp only [encStr, List.length_append, List.length_cons, objLen]
    omega


theorem dumps_obj_len_ge (ms : JsonObj) : objLen ms + 2 ≤ (dumps (Json.obj ms)).length := by
  cases ms with
  | nil =>
    rw [dumps]
    simp [objLen]
  | cons k v t =>
    rw [dumps]
    have := dumpsMembers_len_ge t k v
    simp only [List.length_append, List.length_cons, objLen, List.length_nil]
    omega


/-- The serialized record is at least as long as its metadata count, so the
default fuel of `loads` is ample. -/
theorem record_len_ge (e : TrainingExample) :
    metaLen e ≤ (dumps (exampleToDict e)).length := by
  cases hm : e.metadata with
  | none =>
    unfold metaLen
    rw [hm]
    simp
  | some ms =>
    have h1 : metaLen e = ms.length := by
      unfold metaLen
      rw [hm]
      rfl
    have h2 := dumps_obj_len_ge (metaToObj ms)
    rw [objLen_metaToObj] at h2
    unfold exampleToDict
    rw [hm]
    rw [dumps, dumpsMembers, dumpsMembers, dumpsMembers, dumpsMembers, dumpsMembers]
    simp only [List.length_append, List.length_cons, List.length_nil]
    omega


/-- `json.loads` inverts `json.dumps` on the serialized record of every
well-formed example. -/
theorem loads_record (e : TrainingExample) (hwf : wfExample e) :
    loads (dumps (exampleToDict e)) = some (exampleToDict e) := by
  unfold loads
  have hb := record_len_ge e
  have hvok := exampleToDict_vok e hwf ((dumps (exampleToDict e)).length + 64)
    (by omega) [] trivial
  rw [List.append_nil] at hvok
  rw [hvok]
  rfl


theorem isDigit_ne_nl (c : Char) (h : c.isDigit = true) : c ≠ '\n' := by
  intro he
  have := (isDigit_facts c h).2.2.2.2.2.2.2
  rw [he] at this
  exact absurd this (by decide)


theorem nl_not_mem_hex4 (n : Nat) : '\n' ∉ hex4 n := by
  have h16 : ∀ k, k < 16 → ('\n' : Char) ≠ hexDig k := by decide
  simp only [hex4, List.mem_cons, List.not_mem_nil, or_false]
  push_neg
  exact ⟨h16 _ (Nat.mod_lt _ (by norm_num)), h16 _ (Nat.mod_lt _ (by norm_num)),
    h16 _ (Nat.mod_lt _ (by norm_num)), h16 _ (Nat.mod_lt _ (by norm_num))⟩


set_option maxHeartbeats 1000000 in
theorem nl_not_mem_escChar (c : Char) : '\n' ∉ escChar c := by
  unfold escChar
  split_ifs with a1 a2 a3 a4 a5 a6 a7 a8 a9 a10
  · decide
  · decide
  · decide
  · decide
  · decide
  · decide
  · decide
  · intro hm
    rcases List.mem_cons.mp hm with h | hm
    · exact absurd h (by decide)
    rcases List.mem_cons.mp hm with h | hm
    · exact absurd h (by decide)
    exact nl_not_mem_hex4 _ hm
  · intro hm
    rcases List.mem_cons.mp hm with h | hm
    · exact a3 h.symm
    · simp at hm
  · intro hm
    rcases List.mem_cons.mp hm with h | hm
    · exact absurd h (by decide)
    rcases List.mem_cons.mp hm with h | hm
    · exact absurd h (by decide)
    exact nl_not_mem_hex4 _ hm
  · intro hm
    rcases List.mem_append.mp hm with hm | hm
    · rcases List.mem_cons.mp hm with h | hm
      · exact absurd h (by decide)
      rcases List.mem_cons.mp hm with h | hm
      · exact absurd h (by decide)
      exact nl_not_mem_hex4 _ hm
    · rcases List.mem_cons.mp hm with h | hm
      · exact absurd h (by decide)
      rcases List.mem_cons.mp hm with h | hm
      · exact absurd h (by decide)
      exact nl_not_mem_hex4 _ hm


theorem nl_not_mem_escape (s : Str) : '\n' ∉ escape s := by
  induction s with
  | nil => simp [escape]
  | cons c cs ih =>
    rw [escape]
    intro hm
    rcases List.mem_append.mp hm with h | h
    · exact nl_not_mem_escChar c h
    · exact ih h


theorem nl_not_mem_encStr (s : Str) : '\n' ∉ encStr s := by
  unfold encStr
  intro hm
  rcases List.mem_cons.mp hm with h | hm
  · exact absurd h (by decide)
  rcases List.mem_append.mp hm with h | h
  · exact nl_not_mem_escape s h
  · simp at h


theorem nl_not_mem_natToChars (n : Nat) : '\n' ∉ natToChars n := by
  intro hm
  exact isDigit_ne_nl _ (natToChars_all_digits n _ hm) rfl


theorem nl_not_mem_natToCharsPad (k n : Nat) : '\n' ∉ natToCharsPad k n := by
  intro hm
  exact isDigit_ne_nl _ (natToCharsPad_all_digits k n _ hm) rfl


theorem nl_not_mem_encNumNN (q : ℚ) : '\n' ∉ encNumNN q := by
  unfold encNumNN
  by_cases h0 : decScale q = 0
  · rw [if_pos h0]
    exact nl_not_mem_natToChars _
  · rw [if_neg h0]
    intro hm
    rcases List.mem_append.mp hm with h | hm
    · exact nl_not_mem_natToChars _ h
    rcases List.mem_cons.mp hm with h | h
    · exact absurd h (by decide)
    · exact nl_not_mem_natToCharsPad _ _ h


theorem nl_not_mem_encNum (q : ℚ) : '\n' ∉ encNum q := by
  unfold encNum
  by_cases hq : q < 0
  · rw [if_pos hq]
    intro hm
    rcases List.mem_cons.mp hm with h | h
    · exact absurd h (by decide)
    · exact nl_not_mem_encNumNN _ h
  · rw [if_neg hq]
    exact nl_not_mem_encNumNN _


theorem nl_not_mem_dumps_scalar (s : JScalar) : '\n' ∉ dumps (jscalarToJson s) := by
  cases s with
  | str t =>
    rw [jscalarToJson, dumps]
    exact nl_not_mem_encStr t
  | num q =>
    rw [jscalarToJson, dumps]
    exact nl_not_mem_encNum q
  | bool b =>
    cases b with
    | true => rw [jscalarToJson, dumps]; decide
    | false => rw [jscalarToJson, dumps]; decide
  | null => rw [jscalarToJson, dumps]; decide


theorem nlfree_metaToObj (ms : List (Str × JScalar)) : NlFree (metaToObj ms) := by
  induction ms with
  | nil => exact trivial
  | cons kv rest ih =>
    obtain ⟨k, v⟩ := kv
    rw [metaToObj]
    exact ⟨nl_not_mem_dumps_scalar v, ih⟩


theorem nl_not_mem_dumpsMembers :
    (tl : JsonObj) → (k : Str) → (v : Json) →
      ('\n' ∉ dumps v ∧ NlFree tl) → '\n' ∉ dumpsMembers k v tl
  | .nil, k, v, ⟨hv, _⟩ => by
    rw [dumpsMembers]
    intro hm
    rcases List.mem_append.mp hm with h | hm
    · exact nl_not_mem_encStr k h
    rcases List.mem_cons.mp hm with h | hm
    · exact absurd h (by decide)
    rcases List.mem_cons.mp hm with h | h
    · exact absurd h (by decide)
    · exact hv h
  | .cons k2 v2 t2, k, v, ⟨hv, h2, ht⟩ => by
    rw [dumpsMembers]
    intro hm
    rcases List.mem_append.mp hm with hm | hm
    · rcases List.mem_append.mp hm with h | hm
      · exact nl_not_mem_encStr k h
      rcases List.mem_cons.mp hm with h | hm
      · exact absurd h (by decide)
      rcases List.mem_cons.mp hm with h | h
      · exact absurd h (by decide)
      · exact hv h
    rcases List.mem_cons.mp hm with h | hm
    · exact absurd h (by decide)
    rcases List.mem_cons.mp hm with h | h
    · exact absurd h (by decide)
    · exact nl_not_mem_dumpsMembers t2 k2 v2 ⟨h2, ht⟩ h


theorem nl_not_mem_dumps_obj (ms : JsonObj) (h : NlFree ms) : '\n' ∉ dumps (Json.obj ms) := by
  cases ms with
  | nil => rw [dumps]; decide
  | cons k v t =>
    rw [dumps]
    intro hm
    rcases List.mem_cons.mp hm with hc | hm
    · exact absurd hc (by decide)
    rcases List.mem_append.mp hm with hm | hm
    · exact nl_not_mem_dumpsMembers t k v h hm
    · simp at hm


theorem nl_not_mem_optStr (o : Option Str) : '\n' ∉ dumps (optStrToJson o) := by
  cases o with
  | none => rw [optStrToJson, dumps]; decide
  | some s => rw [optStrToJson, dumps]; exact nl_not_mem_encStr s


/-- No serialized record contains a newline, so each occupies exactly one
line of the JSONL file. -/
theorem nl_not_mem_record (e : TrainingExample) : '\n' ∉ dumps (exampleToDict e) := by
  have hmeta : '\n' ∉ dumps (match e.metadata with
      | none => Json.null
      | some ms => Json.obj (metaToObj ms)) := by
    cases e.metadata with
    | none => rw [dumps]; decide
    | some ms => exact nl_not_mem_dumps_obj _ (nlfree_metaToObj ms)
  unfold exampleToDict
  apply nl_not_mem_dumps_obj
  refine ⟨nl_not_mem_optStr _, nl_not_mem_optStr _, nl_not_mem_optStr _, ?_, hmeta, trivial⟩
  rw [dumps]
  exact nl_not_mem_encNum _


theorem pyLinesAux_append (l rest acc : Str) (h : '\n' ∉ l) :
    pyLinesAux (l ++ '\n' :: rest) acc = (acc.reverse ++ l) :: pyLinesAux rest [] := by
  induction l generalizing acc with
  | nil =>
    rw [List.nil_append, pyLinesAux, if_pos rfl, List.append_nil]
  | cons c l ih =>
    have hc : c ≠ '\n' := fun he => h (he ▸ List.mem_cons_self c l)
    have hl : '\n' ∉ l := fun hm => h (List.mem_cons_of_mem c hm)
    rw [List.cons_append, pyLinesAux, if_neg hc, ih _ hl]
    simp


/-- Joining newline-terminated lines and splitting back is the identity when
no line contains a newline. -/
theorem pyLines_join (ls : List Str) (h : ∀ l ∈ ls, '\n' ∉ l) :
    pyLines ((ls.map (fun l => l ++ ['\n'])).flatten) = ls := by
  induction ls with
  | nil => rfl
  | cons l ls ih =>
    have h1 : '\n' ∉ l := h l (List.mem_cons_self l ls)
    have h2 : ∀ x ∈ ls, '\n' ∉ x := fun x hx => h x (List.mem_cons_of_mem l hx)
    unfold pyLines
    rw [List.map_cons, List.flatten_cons, List.append_assoc, List.singleton_append,
      pyLinesAux_append _ _ _ h1]
    rw [List.reverse_nil, List.nil_append]
    exact congrArg _ (ih h2)


theorem mapMo_all_some {α β : Type} (f : α → Option β) (g : α → β) (l : List α)
    (h : ∀ x ∈ l, f x = some (g x)) : mapMo f l = some (l.map g) := by
  induction l with
  | nil => rfl
  | cons x xs ih =>
    rw [mapMo, h x (List.mem_cons_self x xs),
      ih (fun y hy => h y (List.mem_cons_of_mem x hy))]
    rfl


theorem mapMo_none {α β : Type} (f : α → Option β) (l : List α) (x : α)
    (hx : x ∈ l) (hf : f x = none) : mapMo f l = none := by
  induction l with
  | nil => simp at hx
  | cons y ys ih =>
    rw [mapMo]
    rcases List.mem_cons.mp hx with he | hm
    · rw [← he, hf]
    · cases hy : f y with
      | none => rfl
      | some v => rw [ih hm]; rfl


theorem mapMo_some_of_all {α β : Type} (f : α → Option β) (l : List α)
    (h : ∀ x ∈ l, (f x).isSome) : ∃ ys, mapMo f l = some ys ∧ ys.length = l.length := by
  induction l with
  | nil => exact ⟨[], rfl, rfl⟩
  | cons x xs ih =>
    obtain ⟨ys, hys, hlen⟩ := ih (fun y hy => h y (List.mem_cons_of_mem x hy))
    have hx := h x (List.mem_cons_self x xs)
    cases hfx : f x with
    | none => rw [hfx] at hx; simp at hx
    | some v =>
      refine ⟨v :: ys, ?_, by simp [hlen]⟩
      rw [mapMo, hfx, hys]
      rfl


theorem mapMo_map {α β γ : Type} (f : β → Option γ) (m : α → β) (l : List α) :
    mapMo f (l.map m) = mapMo (fun x => f (m x)) l := by
  induction l with
  | nil => rfl
  | cons x xs ih =>
    rw [List.map_cons, mapMo, mapMo, ih]


/-- C8: writing any collection of well-formed examples with `save_to_jsonl`
and reading it back with the preparation stage's line-by-line `json.loads`
loop yields exactly the written records, in order.  The well-formedness
hypothesis states that every numeric value is an exact finite decimal,
which holds of every IEEE double the collection stage can store. -/
theorem claim_C8_roundtrip (es : List TrainingExample)
    (hwf : ∀ e ∈ es, wfExample e) :
    readJsonl (save_to_jsonl es) = some (es.map exampleToDict) := by
  unfold readJsonl save_to_jsonl
  have hmap : (es.map fun e => dumps (exampleToDict e) ++ ['\n'])
      = (es.map fun e => dumps (exampleToDict e)).map (fun l => l ++ ['\n']) := by
    rw [List.map_map]
    rfl
  rw [hmap, pyLines_join _ (by
    intro l hl
    obtain ⟨e, _, rfl⟩ := List.mem_map.mp hl
    exact nl_not_mem_record e)]
  rw [mapMo_map]
  exact mapMo_all_some _ exampleToDict es (fun e he => loads_record e (hwf e he))


theorem claim_C8_witness :
    readJsonl (save_to_jsonl [(⟨some ['a'], some ['b'], some ['x'], 1, none⟩ : TrainingExample)])
      = some [exampleToDict ⟨some ['a'], some ['b'], some ['x'], 1, none⟩] := by
  apply claim_C8_roundtrip
  intro e he
  rw [List.mem_singleton] at he
  subst he
  exact ⟨by decide, trivial⟩


/-- C9: the preparation stage's read loop is all-or-nothing — one malformed
line makes the whole read fail with no partial result, and when every line
parses the read returns exactly one record per line. -/
theorem claim_C9_all_or_nothing (file : Str) :
    ((∃ l ∈ pyLines file, loads l = none) → readJsonl file = none) ∧
    ((∀ l ∈ pyLines file, (loads l).isSome) →
      ∃ js, readJsonl file = some js ∧ js.length = (pyLines file).length) := by
  constructor
  · rintro ⟨l, hl, hnone⟩
    exact mapMo_none loads _ l hl hnone
  · intro h
    exact mapMo_some_of_all loads _ h


theorem claim_C9_witness :
    readJsonl ('n' :: 'u' :: 'l' :: 'l' :: '\n' :: 'x' :: '\n' :: []) = none ∧
    readJsonl ('n' :: 'u' :: 'l' :: 'l' :: '\n' :: []) = some [Json.null] := by
  constructor
  · refine (claim_C9_all_or_nothing _).1 ⟨['x'], ?_, ?_⟩
    · rw [show pyLines ('n' :: 'u' :: 'l' :: 'l' :: '\n' :: 'x' :: '\n' :: [])
          = [['n', 'u', 'l', 'l'], ['x']] from rfl]
      exact List.mem_cons_of_mem _ (List.mem_cons_self _ _)
    · rfl
  · obtain ⟨js, hjs, _⟩ := (claim_C9_all_or_nothing
        ('n' :: 'u' :: 'l' :: 'l' :: '\n' :: [])).2 (by
      intro l hl
      rw [show pyLines ('n' :: 'u' :: 'l' :: 'l' :: '\n' :: [])
          = [['n', 'u', 'l', 'l']] from rfl, List.mem_singleton] at hl
      subst hl
      rfl)
    have hv : readJsonl ('n' :: 'u' :: 'l' :: 'l' :: '\n' :: []) = some [Json.null] := rfl
    exact hv


theorem claim_C7_witness :
    ∃ out, formatAll [Json.obj (JsonObj.cons kInputText (Json.str ['a'])
        (JsonObj.cons kOutputText (Json.str ['b']) JsonObj.nil))] = some out
      ∧ out.length = [Json.obj (JsonObj.cons kInputText (Json.str ['a'])
          (JsonObj.cons kOutputText (Json.str ['b']) JsonObj.nil))].length
      ∧ List.Forall₂ (fun r f => ∀ ms, r = Json.obj ms →
          f = Json.obj (.cons kInstruction (.str instructionText)
            (.cons kInput ((jObjGet ms kInputText).getD .null)
            (.cons kOutput ((jObjGet ms kOutputText).getD .null)
            (.cons kSource ((jObjGet ms kSourceType).getD (.str unknownChars)) .nil)))))
        [Json.obj (JsonObj.cons kInputText (Json.str ['a'])
          (JsonObj.cons kOutputText (Json.str ['b']) JsonObj.nil))] out := by
  apply claim_C7_formatting_purity
  intro r hr
  rw [List.mem_singleton] at hr
  subst hr
  exact ⟨_, rfl, by rfl, by rfl⟩
